import Mathlib

/-!
# Task groups with timeouts and cooperative cancellation (main.cpp)

A shallow embedding of `main.cpp`:

* `Dbl` models the C++ `double` values the program computes with
  (IEEE-754 binary64, round to nearest, ties to even);
* `square`, `square_root`, `factorial` are the three work functions, driven by
  the successive values read from the task's `atomic<bool>` flag;
* `createGroup`, `switchGroup`, `addTask`, `handleCtrlC` act on the global
  variables of the program;
* `runGroup` is embedded as an interleaving semantics (`step`, `exec`) of the
  main thread, the worker threads and the timeout threads.
-/

namespace TaskGroups

/-! ## C++ `int` and `double` -/

/-- Two's complement wrap-around of a mathematical integer into the range of a
32-bit `int`. -/
def wrap32 (z : ℤ) : ℤ := (z + 2 ^ 31) % 2 ^ 32 - 2 ^ 31

/-- The values of a C++ `double` that the program can produce: `NAN`, the two
infinities and the finite values (a finite value is stored as the rational
number it denotes; the sign of zero is not tracked). -/
inductive Dbl
  | nan
  | inf (neg : Bool)
  | fin (q : ℚ)
  deriving DecidableEq

namespace Dbl

/-- Rounding of a rational to the nearest integer, ties to the even one. -/
def roundHalfEven (s : ℚ) : ℤ :=
  if s - ⌊s⌋ < 1 / 2 then ⌊s⌋
  else if 1 / 2 < s - ⌊s⌋ then ⌊s⌋ + 1
  else if ⌊s⌋ % 2 = 0 then ⌊s⌋ else ⌊s⌋ + 1

/-- Exponent of the unit in the last place of the binary64 numbers around a
non-zero `q`: 53 significant bits, and never below the subnormal spacing. -/
def ulpExp (q : ℚ) : ℤ := max (Int.log 2 |q| - 52) (-1074)

/-- Rounding of an exact rational result to binary64: to the nearest multiple
of the unit in the last place, ties to even, overflowing to an infinity. -/
def round (q : ℚ) : Dbl :=
  if q = 0 then fin 0
  else if (2 : ℚ) ^ 1024 ≤ |(roundHalfEven (q / 2 ^ ulpExp q) : ℚ) * 2 ^ ulpExp q| then
    inf (decide (q < 0))
  else fin ((roundHalfEven (q / 2 ^ ulpExp q) : ℚ) * 2 ^ ulpExp q)

/-- Conversion of an `int` to `double`. -/
def ofInt (z : ℤ) : Dbl := round z

/-- Multiplication of two `double` values. -/
def mul : Dbl → Dbl → Dbl
  | fin a, fin b => round (a * b)
  | fin a, inf t => if a = 0 then nan else inf (xor (decide (a < 0)) t)
  | inf s, fin b => if b = 0 then nan else inf (xor s (decide (b < 0)))
  | inf s, inf t => inf (xor s t)
  | _, _ => nan

/-- Correctly rounded square root of a positive rational: the significand is
the integer nearest to the square root of `q / 4 ^ u`, where `u` places it in
the range of 53-bit integers. -/
def sqrtPos (q : ℚ) : Dbl :=
  let u : ℤ := Int.log 2 q / 2 - 52
  let t : ℚ := q / 4 ^ u
  let s : ℕ := Nat.sqrt ⌊t⌋₊
  let m : ℕ :=
    if t < s * s + s + 1 / 4 then s
    else if (s : ℚ) * s + s + 1 / 4 < t then s + 1
    else if s % 2 = 0 then s else s + 1
  fin (m * 2 ^ u)

/-- The function `sqrt` of `<cmath>`. -/
def sqrt : Dbl → Dbl
  | nan => nan
  | inf true => nan
  | inf false => inf false
  | fin q => if q < 0 then nan else if q = 0 then fin 0 else sqrtPos q

end Dbl

/-! ## The work functions

A call of a work function reads the flag once per loop iteration.  The values
it reads are supplied as a list, in order; `none` means that the call has
consumed the whole list and is waiting at its next checkpoint. -/

/-- What a finished call of a work function has done: the `double` it
returned, the number of 100 ms sleeps it went through, and what it printed. -/
structure Ret where
  value : Dbl
  sleeps : ℕ
  out : List String
  deriving DecidableEq

/-- The loop of `square`, entered with loop counter `i`. -/
def squareLoop (x : ℤ) (i : ℤ) (sleeps : ℕ) : List Bool → Option Ret
  | [] => if i ≤ 10 then none else some ⟨Dbl.ofInt (wrap32 (x * x)), sleeps, []⟩
  | b :: flag =>
    if i ≤ 10 then
      if b then some ⟨Dbl.nan, sleeps, ["Square calculation cancelled.\n"]⟩
      else squareLoop x (wrap32 (i + 1)) (sleeps + 1) flag
    else some ⟨Dbl.ofInt (wrap32 (x * x)), sleeps, []⟩

/-- The function `square`. -/
def square (x : ℤ) (flag : List Bool) : Option Ret := squareLoop x 1 0 flag

/-- The loop of `square_root`, entered with loop counter `i`. -/
def square_rootLoop (x : ℤ) (i : ℤ) (sleeps : ℕ) : List Bool → Option Ret
  | [] => if i ≤ 20 then none else some ⟨Dbl.sqrt (Dbl.ofInt x), sleeps, []⟩
  | b :: flag =>
    if i ≤ 20 then
      if b then some ⟨Dbl.nan, sleeps, ["Sqrt calculation cancelled.\n"]⟩
      else square_rootLoop x (wrap32 (i + 1)) (sleeps + 1) flag
    else some ⟨Dbl.sqrt (Dbl.ofInt x), sleeps, []⟩

/-- The function `square_root`. -/
def square_root (x : ℤ) (flag : List Bool) : Option Ret := square_rootLoop x 1 0 flag

/-- The loop of `factorial`, entered with loop counter `i` and accumulator
`result`. -/
def factorialLoop (x : ℤ) (i : ℤ) (result : Dbl) (sleeps : ℕ) : List Bool → Option Ret
  | [] => if i ≤ x then none else some ⟨result, sleeps, []⟩
  | b :: flag =>
    if i ≤ x then
      if b then some ⟨Dbl.nan, sleeps, ["Factorial calculation cancelled.\n"]⟩
      else factorialLoop x (wrap32 (i + 1)) (result.mul (Dbl.ofInt i)) (sleeps + 1) flag
    else some ⟨result, sleeps, []⟩

/-- The function `factorial`. -/
def factorial (x : ℤ) (flag : List Bool) : Option Ret :=
  factorialLoop x 1 (Dbl.ofInt 1) 0 flag

/-- The shape shared by the three loops: `n` iterations remain, each one reads
the flag first and returns `NAN` when it is set; `v` is the value returned
when the loop runs to its end. -/
def coop (msg : String) (v : Dbl) : ℕ → ℕ → List Bool → Option Ret
  | 0, sleeps, _ => some ⟨v, sleeps, []⟩
  | _ + 1, _, [] => none
  | _ + 1, sleeps, true :: _ => some ⟨Dbl.nan, sleeps, [msg]⟩
  | n + 1, sleeps, false :: flag => coop msg v n (sleeps + 1) flag

/-- The accumulator of `factorial` after `n` more iterations that start at
loop counter `i`. -/
def accum : Dbl → ℤ → ℕ → Dbl
  | result, _, 0 => result
  | result, i, n + 1 => accum (result.mul (Dbl.ofInt i)) (i + 1) n

/-! ## Tasks, groups and the global variables -/

/-- The functions that `main` stores in a task (`TaskFunction`). -/
inductive TaskFunction
  | square
  | square_root
  | factorial
  deriving DecidableEq

/-- A call `task.func(task.argument, *task.cancel_flag)`. -/
def TaskFunction.call : TaskFunction → ℤ → List Bool → Option Ret
  | .square => TaskGroups.square
  | .square_root => TaskGroups.square_root
  | .factorial => TaskGroups.factorial

/-- The struct `Task`.  Every task owns the atomic flag that its
`cancel_flag` points to (`addTask` allocates a new one for each task), so the
flag is stored in the task. -/
structure Task where
  name : String
  func : TaskFunction
  argument : ℤ
  timeout_ms : ℤ
  result : Dbl
  cancel_flag : Bool
  deriving DecidableEq

/-- The type of `groups`, a `map<string, vector<Task>>`: the entries in the
order of their keys. -/
abbrev Groups := List (String × List Task)

/-- Assignment `m[k] = v` in the map. -/
def mapSet (k : String) (v : List Task) : Groups → Groups
  | [] => [(k, v)]
  | (k0, v0) :: m =>
    if k < k0 then (k, v) :: (k0, v0) :: m
    else if k = k0 then (k, v) :: m
    else (k0, v0) :: mapSet k v m

/-- The global variables of the program, and what it has written to `cout`
and `cerr`. -/
structure Globals where
  groups : Groups
  current_group : String
  active_tasks : ℤ
  cout : List String
  cerr : List String
  deriving DecidableEq

/-- The statement `*task.cancel_flag = true`. -/
def Task.cancel (t : Task) : Task := { t with cancel_flag := true }

/-- The function `handleCtrlC`. -/
def handleCtrlC (g : Globals) : Globals :=
  { g with
    groups := g.groups.map fun p => (p.1, p.2.map Task.cancel)
    cout := g.cout ++ ["\nAll tasks in all groups have been cancelled due to Ctrl+C.\n"] }

/-- The function `createGroup`. -/
def createGroup (group_name : String) (g : Globals) : Globals :=
  match g.groups.lookup group_name with
  | some _ => { g with cerr := g.cerr ++ ["Group " ++ group_name ++ " already exists.\n"] }
  | none =>
    { g with
      groups := mapSet group_name [] g.groups
      cout := g.cout ++ ["Group " ++ group_name ++ " created.\n"] }

/-- The function `switchGroup`. -/
def switchGroup (group_name : String) (g : Globals) : Globals :=
  match g.groups.lookup group_name with
  | none => { g with cerr := g.cerr ++ ["Group " ++ group_name ++ " does not exist.\n"] }
  | some _ =>
    { g with
      current_group := group_name
      cout := g.cout ++ ["Switched to group " ++ group_name ++ ".\n"] }

/-- The function `addTask`. -/
def addTask (group_name task_name : String) (func : TaskFunction) (argument timeout_ms : ℤ)
    (g : Globals) : Globals :=
  match g.groups.lookup group_name with
  | none => { g with cerr := g.cerr ++ ["Group " ++ group_name ++ " does not exist.\n"] }
  | some tasks =>
    { g with
      groups := mapSet group_name
        (tasks ++ [⟨task_name, func, argument, timeout_ms, Dbl.nan, false⟩]) g.groups
      cout := g.cout ++ ["Task " ++ task_name ++ " added to group " ++ group_name ++ ".\n"] }

/-! ## runGroup

One call of `runGroup` on an existing group is a concurrent program: the main
thread, one worker thread per task and one timeout thread per worker.  Its
executions are the sequences of atomic steps of these threads, interleaved in
any order, with the steady clock advancing in between and `handleCtrlC`
running at any moment.  A thread that sleeps is not scheduled before its
sleep is over; it may be scheduled any time later. -/

/-- Where a worker thread is. -/
inductive WorkerPc
  /-- The thread has not been created. -/
  | unspawned
  /-- About to read the clock into `start_time`. -/
  | entry
  /-- About to create `timeout_thread`. -/
  | spawn
  /-- Inside `task.func`, about to test the loop condition, not before the
  time `wake`. -/
  | call (wake : ℕ)
  /-- `task.func` has returned `r`, which is about to be assigned to
  `task.result`. -/
  | store (r : Ret)
  /-- At `timeout_thread.join()`. -/
  | join
  /-- About to lock `mtx` and decrement `active_tasks`. -/
  | decrement
  /-- About to call `cv.notify_one()`. -/
  | notify
  /-- The thread has ended. -/
  | done
  deriving DecidableEq

/-- Where a timeout thread is. -/
inductive WatcherPc
  /-- The thread has not been created. -/
  | unspawned
  /-- About to test the condition of the `while` loop, not before the time
  `wake`. -/
  | poll (wake : ℕ)
  /-- The thread has ended. -/
  | done
  deriving DecidableEq

/-- Where the main thread is inside `runGroup`. -/
inductive MainPc
  /-- About to assign `active_tasks`. -/
  | setCount
  /-- In the loop that creates the threads, `j` of them created. -/
  | spawn (j : ℕ)
  /-- At `cv.wait`. -/
  | wait
  /-- In the loop that joins the threads, `j` of them joined. -/
  | join (j : ℕ)
  /-- `runGroup` has returned. -/
  | done
  deriving DecidableEq

/-- A task of the running group together with the thread pair that holds the
reference `&task`: the values the call of `task.func` has read from the flag
so far, the local `start_time`, and the control points of the two threads. -/
structure Slot where
  task : Task
  reads : List Bool
  start_time : ℕ
  worker : WorkerPc
  watcher : WatcherPc
  deriving DecidableEq

/-- State of a call of `runGroup` on the existing group `group_name`.  The
vector `groups[group_name]` is held in `slots` for the duration of the call;
`now` is the steady clock in milliseconds. -/
structure RunState where
  g : Globals
  group_name : String
  slots : List Slot
  now : ℕ
  main : MainPc
  deriving DecidableEq

/-- The global variables as the rest of the program sees them. -/
def RunState.globals (s : RunState) : Globals :=
  { s.g with groups := mapSet s.group_name (s.slots.map Slot.task) s.g.groups }

/-- The function `runGroup` up to the point where it starts to create
threads: either it has returned (the group does not exist), or the concurrent
part starts. -/
def runGroup (group_name : String) (g : Globals) : Globals ⊕ RunState :=
  match g.groups.lookup group_name with
  | none => .inl { g with cerr := g.cerr ++ ["Group " ++ group_name ++ " does not exist.\n"] }
  | some tasks =>
    .inr
      { g := g
        group_name := group_name
        slots := tasks.map fun t => ⟨t, [], 0, .unspawned, .unspawned⟩
        now := 0
        main := .setCount }

/-- One atomic step of a worker thread at time `now`; the second component
tells whether the step decrements `active_tasks`, the third what it prints. -/
def workerStep (now : ℕ) (sl : Slot) : Option (Slot × Bool × List String) :=
  match sl.worker with
  | .unspawned => none
  | .entry => some ({ sl with start_time := now, worker := .spawn }, false, [])
  | .spawn => some ({ sl with watcher := .poll now, worker := .call now }, false, [])
  | .call wake =>
    if now < wake then none
    else
      match sl.task.func.call sl.task.argument sl.reads with
      | some r => some ({ sl with worker := .store r }, false, r.out)
      | none =>
        if sl.task.cancel_flag then
          some ({ sl with reads := sl.reads ++ [true], worker := .call now }, false, [])
        else
          some ({ sl with reads := sl.reads ++ [false], worker := .call (now + 100) }, false, [])
  | .store r => some ({ sl with task := { sl.task with result := r.value }, worker := .join }, false, [])
  | .join => if sl.watcher = .done then some ({ sl with worker := .decrement }, false, []) else none
  | .decrement => some ({ sl with worker := .notify }, true, [])
  | .notify => some ({ sl with worker := .done }, false, [])
  | .done => none

/-- One atomic step of a timeout thread at time `now`: one test of the
`while` condition followed by the body of the loop or by the assignment
after it. -/
def watcherStep (now : ℕ) (sl : Slot) : Option Slot :=
  match sl.watcher with
  | .unspawned => none
  | .poll wake =>
    if now < wake then none
    else if (now : ℤ) - sl.start_time < sl.task.timeout_ms then
      if sl.task.cancel_flag then some { sl with watcher := .done }
      else some { sl with watcher := .poll (now + 10) }
    else some { sl with task := sl.task.cancel, watcher := .done }
  | .done => none

/-- What can happen next in an execution. -/
inductive Action
  /-- The main thread takes a step. -/
  | main
  /-- The worker thread of task `k` takes a step. -/
  | worker (k : ℕ)
  /-- The timeout thread of task `k` takes a step. -/
  | watcher (k : ℕ)
  /-- The clock advances by `d` milliseconds. -/
  | tick (d : ℕ)
  /-- The process receives SIGINT and `handleCtrlC` runs. -/
  | ctrlC
  deriving DecidableEq

/-- One atomic step of the main thread. -/
def mainStep (s : RunState) : Option RunState :=
  match s.main with
  | .setCount => some { s with g := { s.g with active_tasks := s.slots.length }, main := .spawn 0 }
  | .spawn j =>
    match s.slots[j]? with
    | some sl =>
      some { s with slots := s.slots.set j { sl with worker := .entry }, main := .spawn (j + 1) }
    | none => some { s with main := .wait }
  | .wait => if s.g.active_tasks = 0 then some { s with main := .join 0 } else none
  | .join j =>
    match s.slots[j]? with
    | some sl => if sl.worker = .done then some { s with main := .join (j + 1) } else none
    | none =>
      some { s with
        g := { s.g with cout := s.g.cout ++ ["Group " ++ s.group_name ++ " tasks completed.\n"] }
        main := .done }
  | .done => none

/-- One step of the execution; `none` when the step cannot be taken in `s`. -/
def step (s : RunState) : Action → Option RunState
  | .main => mainStep s
  | .worker k =>
    match s.slots[k]? with
    | none => none
    | some sl =>
      match workerStep s.now sl with
      | none => none
      | some (sl', dec, out) =>
        some { s with
          slots := s.slots.set k sl'
          g := { s.g with
            active_tasks := if dec then s.g.active_tasks - 1 else s.g.active_tasks
            cout := s.g.cout ++ out } }
  | .watcher k =>
    match s.slots[k]? with
    | none => none
    | some sl =>
      match watcherStep s.now sl with
      | none => none
      | some sl' => some { s with slots := s.slots.set k sl' }
  | .tick d => some { s with now := s.now + d }
  | .ctrlC =>
    some { s with
      g := handleCtrlC s.g
      slots := s.slots.map fun sl => { sl with task := sl.task.cancel } }

/-- The state after a sequence of steps. -/
def exec (s : RunState) : List Action → Option RunState
  | [] => some s
  | a :: as => (step s a).bind fun s' => exec s' as

/-- Whether some thread can take a step in `s`. -/
def someThreadReady (s : RunState) : Bool :=
  (mainStep s).isSome
    || s.slots.any fun sl => (workerStep s.now sl).isSome || (watcherStep s.now sl).isSome

/-- A step of a punctual execution: the clock does not pass a moment at which
a thread can take a step, so that every thread is scheduled the moment it is
ready and no sleep lasts longer than asked. -/
def stepP (s : RunState) : Action → Option RunState
  | .tick d =>
    if someThreadReady { s with now := s.now + (d - 1) } then none
    else step s (.tick d)
  | a => step s a

/-- The state after a sequence of steps of a punctual execution. -/
def execP (s : RunState) : List Action → Option RunState
  | [] => some s
  | a :: as => (stepP s a).bind fun s1 => execP s1 as

/-! ## Vocabulary of the statements about runGroup -/

/-- The worker has executed its decrement of `active_tasks`. -/
def WorkerPc.finished : WorkerPc → Bool
  | .notify => true
  | .done => true
  | _ => false

/-- The worker has assigned `task.result`. -/
def WorkerPc.stored : WorkerPc → Bool
  | .join => true
  | .decrement => true
  | .notify => true
  | .done => true
  | _ => false

/-- The worker has come back from `timeout_thread.join()`. -/
def WorkerPc.joined : WorkerPc → Bool
  | .decrement => true
  | .notify => true
  | .done => true
  | _ => false

/-- The worker has not yet called `task.func`. -/
def WorkerPc.fresh : WorkerPc → Bool
  | .unspawned => true
  | .entry => true
  | .spawn => true
  | _ => false

/-- The fields of a task that `addTask` fixes. -/
def Task.job (t : Task) : String × TaskFunction × ℤ × ℤ :=
  (t.name, t.func, t.argument, t.timeout_ms)

/-- What holds of a task and its two threads at every moment of a run. -/
structure SlotOk (sl : Slot) : Prop where
  flag_of_watcher_done : sl.watcher = .done → sl.task.cancel_flag = true
  watcher_done_of_joined : sl.worker.joined = true → sl.watcher = .done
  watcher_of_fresh : sl.worker.fresh = true → sl.watcher = .unspawned ∧ sl.reads = []
  watcher_of_called : sl.worker.fresh = false → sl.watcher ≠ .unspawned
  ret_of_store : ∀ r, sl.worker = .store r → sl.task.func.call sl.task.argument sl.reads = some r
  result_of_stored : sl.worker.stored = true →
    ∃ r, sl.task.func.call sl.task.argument sl.reads = some r ∧ sl.task.result = r.value
  pending_before_read : ∀ pre b, sl.reads = pre ++ [b] →
    sl.task.func.call sl.task.argument pre = none

/-- What holds of the main thread, the counter and the control points of the
workers at every moment of a run. -/
structure MainOk (main : MainPc) (active : ℤ) (pcs : List WorkerPc) : Prop where
  not_started : main = .setCount → ∀ w ∈ pcs, w = .unspawned
  to_spawn : ∀ j, main = .spawn j → ∀ k w, pcs[k]? = some w → j ≤ k → w = .unspawned
  count : main ≠ .setCount → active = pcs.length - pcs.countP WorkerPc.finished
  joined : ∀ j, main = .join j → ∀ k w, pcs[k]? = some w → k < j → w = .done
  all_done : main = .done → ∀ w ∈ pcs, w = .done
  spawned : ∀ k w, pcs[k]? = some w → w = .unspawned →
    main = .setCount ∨ ∃ j, main = .spawn j ∧ j ≤ k

/-- The invariant of a run of the group whose tasks were `tasks` at the call. -/
structure Inv (tasks : List Task) (s : RunState) : Prop where
  slots_ok : ∀ sl ∈ s.slots, SlotOk sl
  jobs : s.slots.map (fun sl => sl.task.job) = tasks.map Task.job
  main_ok : MainOk s.main s.g.active_tasks (s.slots.map Slot.worker)

/-- What holds of a task from the moment `handleCtrlC` has run while its work
function was waiting to reach a further checkpoint. -/
structure Doomed (sl : Slot) : Prop where
  flag : sl.task.cancel_flag = true
  called : sl.worker.fresh = false
  in_call : ∀ w, sl.worker = .call w →
    sl.task.func.call sl.task.argument sl.reads = none
    ∨ ∃ r, sl.task.func.call sl.task.argument sl.reads = some r ∧ r.value = Dbl.nan
  at_store : ∀ r, sl.worker = .store r → r.value = Dbl.nan
  after_store : sl.worker.stored = true → sl.task.result = Dbl.nan

/-- The number of checkpoints of a work function: the number of iterations
of its loop. -/
def checkpoints : TaskFunction → ℤ → ℕ
  | .square, _ => 10
  | .square_root, _ => 20
  | .factorial, x => x.toNat

/-- How far the worker of a task is from its end: the number of the control
point, where a call that is about to return counts as later than a call that
waits for a value of the flag. -/
def workRank (sl : Slot) : ℕ :=
  match sl.worker with
  | .unspawned => 9
  | .entry => 8
  | .spawn => 7
  | .call _ => if (sl.task.func.call sl.task.argument sl.reads).isNone then 6 else 5
  | .store _ => 4
  | .join => 3
  | .decrement => 2
  | .notify => 1
  | .done => 0

/-- How far the two threads of a task are from their end. -/
def rank (sl : Slot) : ℕ := 2 * workRank sl + (if sl.watcher = .done then 0 else 1)

/-- The state `s1` differs from `s` only in the clock, the counter, the
output and the task at index `k` with its threads. -/
def Local (k : ℕ) (s s1 : RunState) : Prop :=
  s1.main = s.main ∧ s1.slots.length = s.slots.length
    ∧ ∀ j, j ≠ k → s1.slots[j]? = s.slots[j]?

/-! ## Concrete runs -/

/-- One group `g1` with the task `a` = `square(5)`, timeout 2000 ms. -/
def demoGlobals : Globals :=
  { groups := [("g1", [⟨"a", .square, 5, 2000, Dbl.nan, false⟩])]
    current_group := "g1", active_tasks := 0, cout := [], cerr := [] }

/-- The start of the concurrent part of `runGroup("g1")` on `demoGlobals`. -/
def demoInit : RunState :=
  { g := demoGlobals, group_name := "g1"
    slots := [⟨⟨"a", .square, 5, 2000, Dbl.nan, false⟩, [], 0, .unspawned, .unspawned⟩]
    now := 0, main := .setCount }

/-- The threads are created and task `a` goes through its 10 checkpoints, 100
ms apart; the execution stops during the last sleep, at 900 ms. -/
def demoBefore : List Action :=
  [.main, .main, .main, .worker 0, .worker 0]
    ++ (List.replicate 9 [Action.worker 0, .tick 100]).flatten ++ [.worker 0]

/-- The sleep ends, the function returns, the timeout thread ends, the worker
finishes and `runGroup` returns. -/
def demoAfter : List Action :=
  [.tick 100, .worker 0, .worker 0, .tick 1000, .watcher 0, .worker 0, .worker 0, .worker 0,
    .main, .main, .main]

/-- The state after `demoBefore`: at 900 ms, task `a` has read the flag as
false ten times and is in its last sleep, until 1000 ms. -/
def demoMid : RunState :=
  { g := { demoGlobals with active_tasks := 1 }, group_name := "g1"
    slots := [⟨⟨"a", .square, 5, 2000, Dbl.nan, false⟩, List.replicate 10 false, 0,
      .call 1000, .poll 0⟩]
    now := 900, main := .wait }

/-- The state after `demoBefore ++ demoAfter`: `runGroup` has returned. -/
def demoDone : RunState :=
  { g := { demoGlobals with cout := ["Group g1 tasks completed.\n"] }, group_name := "g1"
    slots := [⟨⟨"a", .square, 5, 2000, Dbl.ofInt (wrap32 (5 * 5)), true⟩,
      List.replicate 10 false, 0, .done, .done⟩]
    now := 2000, main := .done }

/-- Task `a` has gone through its first checkpoint only. -/
def demoEarly : RunState :=
  { g := { demoGlobals with active_tasks := 1 }, group_name := "g1"
    slots := [⟨⟨"a", .square, 5, 2000, Dbl.nan, false⟩, [false], 0, .call 100, .poll 0⟩]
    now := 0, main := .wait }

/-- After `handleCtrlC` in `demoEarly`, task `a` has reached its second
checkpoint, returned and stored its result. -/
def demoCancelled : RunState :=
  { g := { demoGlobals with
      groups := [("g1", [⟨"a", .square, 5, 2000, Dbl.nan, true⟩])]
      active_tasks := 1
      cout := ["\nAll tasks in all groups have been cancelled due to Ctrl+C.\n",
        "Square calculation cancelled.\n"] }
    group_name := "g1"
    slots := [⟨⟨"a", .square, 5, 2000, Dbl.nan, true⟩, [false, true], 0, .join, .poll 0⟩]
    now := 100, main := .wait }

namespace Dbl
theorem roundHalfEven_intCast (n : ℤ) : roundHalfEven (n : ℚ) = n := by
  simp [roundHalfEven]

theorem round_ne_nan (q : ℚ) : round q ≠ nan := by
  unfold round
  split_ifs <;> simp

theorem ulpExp_le_of_lt {q : ℚ} {k : ℤ} (hq : q ≠ 0) (hk : -1074 ≤ k)
    (hlt : |q| < 2 ^ (k + 53)) : ulpExp q ≤ k := by
  have hpos : 0 < |q| := abs_pos.mpr hq
  have h1 : Int.log 2 |q| < k + 53 := by
    have := (Int.lt_zpow_iff_log_lt (b := 2) (by norm_num) hpos (x := k + 53)).mp (by simpa using hlt)
    exact this
  unfold ulpExp
  exact max_le (by omega) hk

/-- A rational of the form `m * 2 ^ k` with a significand `m` of at most 53
bits and an exponent in range is a binary64 number: rounding keeps it. -/
theorem round_of_repr (m k : ℤ) (hm : |m| < 2 ^ 53) (hk : -1074 ≤ k)
    (hbig : |(m : ℚ) * 2 ^ k| < 2 ^ 1024) : round ((m : ℚ) * 2 ^ k) = fin ((m : ℚ) * 2 ^ k) := by
  by_cases hm0 : m = 0
  · subst hm0; simp [round]
  have h2 : (0 : ℚ) < 2 ^ k := zpow_pos (by norm_num) k
  have hq : (m : ℚ) * 2 ^ k ≠ 0 := mul_ne_zero (by exact_mod_cast hm0) h2.ne'
  have hlt : |(m : ℚ) * 2 ^ k| < 2 ^ (k + 53) := by
    rw [abs_mul, abs_of_pos h2, zpow_add₀ (by norm_num : (2 : ℚ) ≠ 0), mul_comm]
    have : |(m : ℚ)| < 2 ^ (53 : ℤ) := by
      have : ((|m| : ℤ) : ℚ) < ((2 ^ 53 : ℤ) : ℚ) := by exact_mod_cast hm
      push_cast at this
      exact_mod_cast this
    exact mul_lt_mul_of_pos_left this h2
  have hu := ulpExp_le_of_lt hq hk hlt
  obtain ⟨d, hd⟩ : ∃ d : ℕ, k = ulpExp ((m : ℚ) * 2 ^ k) + d := ⟨(k - ulpExp ((m : ℚ) * 2 ^ k)).toNat, by omega⟩
  have hdiv : (m : ℚ) * 2 ^ k / 2 ^ ulpExp ((m : ℚ) * 2 ^ k) = ((m * 2 ^ d : ℤ) : ℚ) := by
    have h3 : (2 : ℚ) ^ ulpExp ((m : ℚ) * 2 ^ k) ≠ 0 := (zpow_pos (by norm_num) _).ne'
    rw [div_eq_iff h3]
    conv_lhs => rw [hd]
    rw [zpow_add₀ (by norm_num : (2 : ℚ) ≠ 0)]
    push_cast
    rw [zpow_natCast]
    ring
  have hval : ((roundHalfEven ((m : ℚ) * 2 ^ k / 2 ^ ulpExp ((m : ℚ) * 2 ^ k)) : ℤ) : ℚ)
      * 2 ^ ulpExp ((m : ℚ) * 2 ^ k) = (m : ℚ) * 2 ^ k := by
    rw [hdiv, roundHalfEven_intCast, ← hdiv]
    have h3 : (2 : ℚ) ^ ulpExp ((m : ℚ) * 2 ^ k) ≠ 0 := (zpow_pos (by norm_num) _).ne'
    field_simp
  unfold round
  rw [if_neg hq, hval, if_neg (not_le.mpr hbig)]

theorem ofInt_of_small (z : ℤ) (hz : |z| < 2 ^ 53) : ofInt z = fin z := by
  have h := round_of_repr z 0 hz (by norm_num) (by
    have h1 : ((|z| : ℤ) : ℚ) < ((2 ^ 53 : ℤ) : ℚ) := by exact_mod_cast hz
    have h2 : |(z : ℚ)| < 2 ^ 53 := by
      push_cast at h1
      exact_mod_cast h1
    simp only [zpow_zero, mul_one]
    exact lt_trans h2 (by norm_num))
  simpa [ofInt] using h

theorem sqrtPos_sq (k : ℕ) (hk0 : 0 < k) (hk : k < 2 ^ 53) :
    sqrtPos ((k : ℚ) * k) = fin k := by
  have hkq : (0 : ℚ) < k := by exact_mod_cast hk0
  have hq : (0 : ℚ) < (k : ℚ) * k := mul_pos hkq hkq
  have hl1 : 2 ^ Nat.log 2 k ≤ k := Nat.pow_log_le_self 2 hk0.ne'
  have hl2 : k < 2 ^ (Nat.log 2 k + 1) := Nat.lt_pow_succ_log_self (by norm_num) k
  have hl53 : Nat.log 2 k < 53 := by
    by_contra h
    push_neg at h
    have : 2 ^ 53 ≤ 2 ^ Nat.log 2 k := Nat.pow_le_pow_right (by norm_num) h
    omega
  generalize Nat.log 2 k = l at hl1 hl2 hl53
  have hL1 : (2 * l : ℤ) ≤ Int.log 2 ((k : ℚ) * k) := by
    rw [← Int.zpow_le_iff_le_log (by norm_num) hq]
    have : ((2 ^ l * 2 ^ l : ℕ) : ℚ) ≤ ((k * k : ℕ) : ℚ) := by
      exact_mod_cast Nat.mul_le_mul hl1 hl1
    have e : ((2 : ℕ) : ℚ) ^ (2 * l : ℤ) = ((2 ^ l * 2 ^ l : ℕ) : ℚ) := by
      rw [show (2 * l : ℤ) = ((2 * l : ℕ) : ℤ) by push_cast; ring, zpow_natCast]
      push_cast
      ring
    rw [e]
    exact_mod_cast this
  have hL2 : Int.log 2 ((k : ℚ) * k) < 2 * l + 2 := by
    rw [← Int.lt_zpow_iff_log_lt (by norm_num) hq]
    have : ((k * k : ℕ) : ℚ) < ((2 ^ (l + 1) * 2 ^ (l + 1) : ℕ) : ℚ) := by
      exact_mod_cast Nat.mul_lt_mul'' hl2 hl2
    have e : ((2 : ℕ) : ℚ) ^ (2 * l + 2 : ℤ) = ((2 ^ (l + 1) * 2 ^ (l + 1) : ℕ) : ℚ) := by
      rw [show (2 * l + 2 : ℤ) = ((2 * l + 2 : ℕ) : ℤ) by push_cast; ring, zpow_natCast]
      push_cast
      ring
    rw [e]
    exact_mod_cast this
  have hu : Int.log 2 ((k : ℚ) * k) / 2 - 52 = -((52 - l : ℕ) : ℤ) := by omega
  obtain ⟨d, hd⟩ : ∃ d : ℕ, d = 52 - l := ⟨_, rfl⟩
  have ht : (k : ℚ) * k / 4 ^ (-(d : ℤ)) = ((k * 2 ^ d * (k * 2 ^ d) : ℕ) : ℚ) := by
    rw [zpow_neg, zpow_natCast, div_inv_eq_mul]
    push_cast
    rw [show (4 : ℚ) = 2 * 2 by norm_num, mul_pow]
    ring
  unfold sqrtPos
  simp only [hu, ← hd, ht, Nat.floor_natCast, Nat.sqrt_eq]
  have hs : (0 : ℚ) ≤ ((k * 2 ^ d : ℕ) : ℚ) := by positivity
  rw [if_pos (by push_cast at hs ⊢; linarith)]
  rw [zpow_neg, zpow_natCast]
  push_cast
  field_simp

theorem sqrt_ofInt_sq (k : ℤ) (hk0 : 0 ≤ k) (hk : k ≤ 46340) :
    sqrt (ofInt (k * k)) = fin k := by
  have hb : |k * k| < 2 ^ 53 := by
    rw [abs_of_nonneg (mul_nonneg hk0 hk0)]
    nlinarith
  rw [ofInt_of_small _ hb]
  obtain ⟨n, rfl⟩ := Int.eq_ofNat_of_zero_le hk0
  rcases Nat.eq_zero_or_pos n with h0 | hpos
  · subst h0; simp [sqrt]
  · have hq : (0 : ℚ) < ((n : ℤ) * (n : ℤ) : ℤ) := by
      have : (0 : ℚ) < n := by exact_mod_cast hpos
      push_cast
      exact mul_pos this this
    have hn : n < 2 ^ 53 := by omega
    simp only [sqrt, if_neg (not_lt.mpr hq.le), if_neg hq.ne']
    have := sqrtPos_sq n hpos hn
    push_cast at this ⊢
    exact this

theorem sqrt_ofInt_neg (x : ℤ) (hx : x < 0) (hlo : -2 ^ 31 ≤ x) : sqrt (ofInt x) = nan := by
  have hb : |x| < 2 ^ 53 := by
    rw [abs_of_neg hx]
    omega
  rw [ofInt_of_small _ hb]
  have : (x : ℚ) < 0 := by exact_mod_cast hx
  simp [sqrt, this]

end Dbl

namespace Dbl

theorem roundHalfEven_near (s : ℚ) : |((roundHalfEven s : ℤ) : ℚ) - s| ≤ 1 / 2 := by
  have h1 : ((⌊s⌋ : ℤ) : ℚ) ≤ s := Int.floor_le s
  have h2 : s < ((⌊s⌋ : ℤ) : ℚ) + 1 := Int.lt_floor_add_one s
  unfold roundHalfEven
  split_ifs with c1 c2 c3
  · rw [abs_le]
    constructor <;> linarith
  · rw [abs_le]
    push_cast
    constructor <;> linarith
  · rw [abs_le]
    constructor <;> linarith
  · rw [abs_le]
    push_cast
    constructor <;> linarith

/-- The model of rounding rounds to nearest: a finite result differs from the
exact value by at most half a unit in the last place. -/
theorem round_near (q : ℚ) :
    (∃ b, round q = inf b) ∨ ∃ v, round q = fin v ∧ |v - q| ≤ 2 ^ ulpExp q / 2 := by
  unfold round
  split_ifs with h0 hbig
  · right
    refine ⟨0, rfl, ?_⟩
    rw [h0]
    simp only [sub_zero, abs_zero]
    positivity
  · left
    exact ⟨_, rfl⟩
  · right
    refine ⟨_, rfl, ?_⟩
    have hpos : (0 : ℚ) < 2 ^ ulpExp q := zpow_pos (by norm_num) _
    have hn := roundHalfEven_near (q / 2 ^ ulpExp q)
    have e : ((roundHalfEven (q / 2 ^ ulpExp q) : ℤ) : ℚ) * 2 ^ ulpExp q - q
        = (((roundHalfEven (q / 2 ^ ulpExp q) : ℤ) : ℚ) - q / 2 ^ ulpExp q) * 2 ^ ulpExp q := by
      field_simp
    rw [e, abs_mul, abs_of_pos hpos]
    calc |((roundHalfEven (q / 2 ^ ulpExp q) : ℤ) : ℚ) - q / 2 ^ ulpExp q| * 2 ^ ulpExp q
        ≤ 1 / 2 * 2 ^ ulpExp q := mul_le_mul_of_nonneg_right hn hpos.le
      _ = 2 ^ ulpExp q / 2 := by ring

end Dbl

namespace Dbl

/-- The model of `sqrt` rounds correctly: for a positive `q` the result is
`m * 2 ^ u` with a significand `m` of 53 bits whose distance to the square
root of `q / 4 ^ u` is at most one half, so that the result is within half a
unit in the last place of the square root of `q`. -/
theorem sqrtPos_nearest (q : ℚ) (hq : 0 < q) :
    ∃ (m : ℕ) (u : ℤ), sqrtPos q = fin ((m : ℚ) * 2 ^ u)
      ∧ 2 ^ 52 ≤ m ∧ m ≤ 2 ^ 53
      ∧ ((m : ℚ) - 1 / 2) ^ 2 ≤ q / 4 ^ u ∧ q / 4 ^ u ≤ ((m : ℚ) + 1 / 2) ^ 2 := by
  have hL1 : (2 : ℚ) ^ Int.log 2 q ≤ q := by
    simpa using Int.zpow_log_le_self (b := 2) (by norm_num) hq
  have hL2 : q < (2 : ℚ) ^ (Int.log 2 q + 1) := by
    simpa using Int.lt_zpow_succ_log_self (b := 2) (by norm_num) q
  generalize hu : Int.log 2 q / 2 - 52 = u
  have h4 : (4 : ℚ) ^ u = 2 ^ (2 * u) := by
    rw [zpow_mul]
    norm_num
  have h2pos : (0 : ℚ) < 2 ^ (2 * u) := zpow_pos (by norm_num) _
  have ht1 : (2 : ℚ) ^ (104 : ℤ) ≤ q / 4 ^ u := by
    rw [h4, le_div_iff₀ h2pos, ← zpow_add₀ (by norm_num : (2 : ℚ) ≠ 0)]
    exact le_trans (zpow_le_zpow_right₀ (by norm_num) (by omega)) hL1
  have ht2 : q / 4 ^ u < (2 : ℚ) ^ (106 : ℤ) := by
    rw [h4, div_lt_iff₀ h2pos, ← zpow_add₀ (by norm_num : (2 : ℚ) ≠ 0)]
    exact lt_of_lt_of_le hL2 (zpow_le_zpow_right₀ (by norm_num) (by omega))
  generalize ht : q / 4 ^ u = t at ht1 ht2
  have ht0 : 0 ≤ t := le_trans (by positivity) ht1
  have hn1 : ((⌊t⌋₊ : ℕ) : ℚ) ≤ t := Nat.floor_le ht0
  have hn2 : t < ((⌊t⌋₊ : ℕ) : ℚ) + 1 := Nat.lt_floor_add_one t
  have hn3 : 2 ^ 104 ≤ ⌊t⌋₊ := by
    apply Nat.le_floor
    have : (((2 : ℕ) ^ 104 : ℕ) : ℚ) = (2 : ℚ) ^ (104 : ℤ) := by norm_num
    rw [this]
    exact ht1
  have hn4 : ⌊t⌋₊ < 2 ^ 106 := by
    have : ((⌊t⌋₊ : ℕ) : ℚ) < (((2 : ℕ) ^ 106 : ℕ) : ℚ) := by
      have h106 : (((2 : ℕ) ^ 106 : ℕ) : ℚ) = (2 : ℚ) ^ (106 : ℤ) := by norm_num
      rw [h106]
      exact lt_of_le_of_lt hn1 ht2
    exact_mod_cast this
  generalize hn : ⌊t⌋₊ = n at hn1 hn2 hn3 hn4
  have hs1 : Nat.sqrt n * Nat.sqrt n ≤ n := Nat.sqrt_le n
  have hs2 : n < (Nat.sqrt n + 1) * (Nat.sqrt n + 1) := Nat.lt_succ_sqrt n
  have hs3 : 2 ^ 52 ≤ Nat.sqrt n := Nat.le_sqrt.mpr (le_trans (by norm_num) hn3)
  have hs4 : Nat.sqrt n < 2 ^ 53 := Nat.sqrt_lt.mpr (lt_of_lt_of_le hn4 (by norm_num))
  generalize hs : Nat.sqrt n = s at hs1 hs2 hs3 hs4
  have hq1 : (s : ℚ) * s ≤ t := by
    have : ((s * s : ℕ) : ℚ) ≤ (n : ℚ) := by exact_mod_cast hs1
    push_cast at this
    linarith
  have hq2 : t < ((s : ℚ) + 1) * (s + 1) := by
    have : ((n + 1 : ℕ) : ℚ) ≤ (((s + 1) * (s + 1) : ℕ) : ℚ) := by exact_mod_cast hs2
    push_cast at this
    linarith
  have hs0 : (1 : ℚ) ≤ s := by
    have : 1 ≤ s := le_trans Nat.one_le_two_pow hs3
    exact_mod_cast this
  have hsq : sqrtPos q = fin (((if t < (s : ℚ) * s + s + 1 / 4 then s
      else if (s : ℚ) * s + s + 1 / 4 < t then s + 1
      else if s % 2 = 0 then s else s + 1 : ℕ) : ℚ) * 2 ^ u) := by
    simp only [sqrtPos, hu, ht, hn, hs]
  rw [hsq]
  have e1 : ((s : ℚ) - 1 / 2) ^ 2 = s * s - s + 1 / 4 := by ring
  have e2 : ((s : ℚ) + 1 / 2) ^ 2 = s * s + s + 1 / 4 := by ring
  have e3 : (((s + 1 : ℕ) : ℚ) - 1 / 2) ^ 2 = s * s + s + 1 / 4 := by push_cast; ring
  have e4 : (((s + 1 : ℕ) : ℚ) + 1 / 2) ^ 2 = (s + 1) * (s + 1) + s + 5 / 4 := by
    push_cast; ring
  by_cases c1 : t < (s : ℚ) * s + s + 1 / 4
  · refine ⟨s, u, by rw [if_pos c1], hs3, hs4.le, ?_, ?_⟩
    · rw [ht, e1]; linarith only [hq1, hs0]
    · rw [ht, e2]; linarith only [c1]
  · by_cases c2 : (s : ℚ) * s + s + 1 / 4 < t
    · refine ⟨s + 1, u, by rw [if_neg c1, if_pos c2], le_trans hs3 (Nat.le_succ _),
        Nat.succ_le_of_lt hs4, ?_, ?_⟩
      · rw [ht, e3]; linarith only [c2]
      · rw [ht, e4]; linarith only [hq2, hs0]
    · have heq : t = (s : ℚ) * s + s + 1 / 4 := le_antisymm (not_lt.mp c2) (not_lt.mp c1)
      by_cases c3 : s % 2 = 0
      · refine ⟨s, u, by rw [if_neg c1, if_neg c2, if_pos c3], hs3, hs4.le, ?_, ?_⟩
        · rw [ht, e1]; linarith only [hq1, hs0]
        · rw [ht, e2]; linarith only [heq]
      · refine ⟨s + 1, u, by rw [if_neg c1, if_neg c2, if_neg c3],
          le_trans hs3 (Nat.le_succ _), Nat.succ_le_of_lt hs4, ?_, ?_⟩
        · rw [ht, e3]; linarith only [heq]
        · rw [ht, e4]; linarith only [hq2, hs0]

end Dbl

theorem wrap32_of_range {z : ℤ} (h1 : -2 ^ 31 ≤ z) (h2 : z < 2 ^ 31) : wrap32 z = z := by
  unfold wrap32
  omega

theorem squareLoop_eq_coop (x : ℤ) (flag : List Bool) :
    ∀ (i : ℤ) (sleeps : ℕ), 1 ≤ i → i ≤ 11 →
      squareLoop x i sleeps flag
        = coop "Square calculation cancelled.\n" (Dbl.ofInt (wrap32 (x * x))) (11 - i).toNat
            sleeps flag := by
  induction flag with
  | nil =>
    intro i sleeps h1 h2
    by_cases h : i ≤ 10
    · obtain ⟨n, hn⟩ : ∃ n, (11 - i).toNat = n + 1 := ⟨(10 - i).toNat, by omega⟩
      simp [squareLoop, coop, h, hn]
    · have hn : (11 - i).toNat = 0 := by omega
      simp [squareLoop, coop, h, hn]
  | cons b flag ih =>
    intro i sleeps h1 h2
    by_cases h : i ≤ 10
    · obtain ⟨n, hn⟩ : ∃ n, (11 - i).toNat = n + 1 := ⟨(10 - i).toNat, by omega⟩
      have hw : wrap32 (i + 1) = i + 1 := wrap32_of_range (by omega) (by omega)
      have hn2 : (11 - (i + 1)).toNat = n := by omega
      cases b
      · simp [squareLoop, coop, h, hn, hw, ih (i + 1) (sleeps + 1) (by omega) (by omega), hn2]
      · simp [squareLoop, coop, h, hn]
    · have hn : (11 - i).toNat = 0 := by omega
      simp [squareLoop, coop, h, hn]

theorem square_rootLoop_eq_coop (x : ℤ) (flag : List Bool) :
    ∀ (i : ℤ) (sleeps : ℕ), 1 ≤ i → i ≤ 21 →
      square_rootLoop x i sleeps flag
        = coop "Sqrt calculation cancelled.\n" (Dbl.sqrt (Dbl.ofInt x)) (21 - i).toNat
            sleeps flag := by
  induction flag with
  | nil =>
    intro i sleeps h1 h2
    by_cases h : i ≤ 20
    · obtain ⟨n, hn⟩ : ∃ n, (21 - i).toNat = n + 1 := ⟨(20 - i).toNat, by omega⟩
      simp [square_rootLoop, coop, h, hn]
    · have hn : (21 - i).toNat = 0 := by omega
      simp [square_rootLoop, coop, h, hn]
  | cons b flag ih =>
    intro i sleeps h1 h2
    by_cases h : i ≤ 20
    · obtain ⟨n, hn⟩ : ∃ n, (21 - i).toNat = n + 1 := ⟨(20 - i).toNat, by omega⟩
      have hw : wrap32 (i + 1) = i + 1 := wrap32_of_range (by omega) (by omega)
      have hn2 : (21 - (i + 1)).toNat = n := by omega
      cases b
      · simp [square_rootLoop, coop, h, hn, hw, ih (i + 1) (sleeps + 1) (by omega) (by omega), hn2]
      · simp [square_rootLoop, coop, h, hn]
    · have hn : (21 - i).toNat = 0 := by omega
      simp [square_rootLoop, coop, h, hn]

theorem coop_zero (msg : String) (v : Dbl) (sleeps : ℕ) (flag : List Bool) :
    coop msg v 0 sleeps flag = some ⟨v, sleeps, []⟩ := by
  cases flag <;> rfl

/-- As long as the increment of the loop counter stays in the range of `int`
(every `x` below `INT_MAX`), the loop of `factorial` has the shape `coop`. -/
theorem factorialLoop_eq_coop (x : ℤ) (hx : x < 2 ^ 31 - 1) (flag : List Bool) :
    ∀ (i : ℤ) (result : Dbl) (sleeps : ℕ), 1 ≤ i →
      factorialLoop x i result sleeps flag
        = coop "Factorial calculation cancelled.\n" (accum result i (x + 1 - i).toNat)
            (x + 1 - i).toNat sleeps flag := by
  induction flag with
  | nil =>
    intro i result sleeps h1
    by_cases h : i ≤ x
    · obtain ⟨n, hn⟩ : ∃ n, (x + 1 - i).toNat = n + 1 := ⟨(x - i).toNat, by omega⟩
      simp [factorialLoop, coop, h, hn]
    · have hn : (x + 1 - i).toNat = 0 := by omega
      simp [factorialLoop, coop, h, hn, accum]
  | cons b flag ih =>
    intro i result sleeps h1
    by_cases h : i ≤ x
    · obtain ⟨n, hn⟩ : ∃ n, (x + 1 - i).toNat = n + 1 := ⟨(x - i).toNat, by omega⟩
      have hw : wrap32 (i + 1) = i + 1 := wrap32_of_range (by omega) (by omega)
      have hn2 : (x + 1 - (i + 1)).toNat = n := by omega
      cases b
      · simp only [factorialLoop, if_pos h, hw, ih (i + 1) _ (sleeps + 1) (by omega), hn2, hn,
          accum, coop]
        simp
      · simp [factorialLoop, coop, h, hn]
    · have hn : (x + 1 - i).toNat = 0 := by omega
      simp [factorialLoop, coop, h, hn, accum]

theorem coop_replicate_false (msg : String) (v : Dbl) :
    ∀ (n sleeps k : ℕ), coop msg v n sleeps (List.replicate k false)
      = if k < n then none else some ⟨v, sleeps + n, []⟩ := by
  intro n
  induction n with
  | zero => intro sleeps k; simp [coop_zero]
  | succ n ih =>
    intro sleeps k
    cases k with
    | zero => simp [coop]
    | succ k =>
      simp only [List.replicate_succ, coop, ih]
      by_cases h : k < n
      · simp [h]
      · simp [h]; omega

theorem factorial_repr (j : ℕ) (hj : j ≤ 22) :
    ∃ k : ℕ, 2 ^ k ∣ j.factorial ∧ j.factorial / 2 ^ k < 2 ^ 53 := by
  interval_cases j
  all_goals first
    | exact ⟨0, by decide⟩
    | exact ⟨16, by decide⟩
    | exact ⟨19, by decide⟩

theorem round_factorial (j : ℕ) (hj : j ≤ 22) :
    Dbl.round (j.factorial : ℚ) = Dbl.fin (j.factorial : ℚ) := by
  obtain ⟨k, hdvd, hlt⟩ := factorial_repr j hj
  obtain ⟨m, hm⟩ := hdvd
  have hmk : j.factorial / 2 ^ k = m := by
    rw [hm]; exact Nat.mul_div_cancel_left m (by positivity)
  rw [hmk] at hlt
  have e : (j.factorial : ℚ) = ((m : ℤ) : ℚ) * 2 ^ (k : ℤ) := by
    rw [hm, zpow_natCast]; push_cast; ring
  have hfac : j.factorial ≤ Nat.factorial 22 := Nat.factorial_le hj
  have hbig : |((m : ℤ) : ℚ) * 2 ^ (k : ℤ)| < 2 ^ 1024 := by
    rw [← e, abs_of_nonneg (by positivity)]
    have h1 : (j.factorial : ℚ) ≤ (Nat.factorial 22 : ℚ) := by exact_mod_cast hfac
    have h2 : (Nat.factorial 22 : ℚ) < 2 ^ 1024 := by
      norm_num [Nat.factorial]
    exact lt_of_le_of_lt h1 h2
  have := Dbl.round_of_repr (m : ℤ) (k : ℤ) (by
    rw [abs_of_nonneg (by positivity)]; exact_mod_cast hlt) (by omega) hbig
  rw [e]; exact this

theorem accum_succ_right : ∀ (n : ℕ) (result : Dbl) (i : ℤ),
    accum result i (n + 1) = (accum result i n).mul (Dbl.ofInt (i + n)) := by
  intro n
  induction n with
  | zero => intro result i; simp [accum]
  | succ n ih =>
    intro result i
    rw [accum, ih, accum]
    push_cast
    ring_nf

theorem ofInt_natCast_small (j : ℕ) (hj : j < 2 ^ 53) : Dbl.ofInt (j : ℤ) = Dbl.fin j := by
  have := Dbl.ofInt_of_small (j : ℤ) (by rw [abs_of_nonneg (by positivity)]; exact_mod_cast hj)
  simpa using this

/-- Up to 22 iterations every product in `factorial` is a binary64 number. -/
theorem accum_factorial (n : ℕ) (hn : n ≤ 22) :
    accum (Dbl.ofInt 1) 1 n = Dbl.fin (n.factorial : ℚ) := by
  induction n with
  | zero =>
    have := ofInt_natCast_small 1 (by norm_num)
    simpa [accum] using this
  | succ n ih =>
    rw [accum_succ_right, ih (by omega)]
    have h1 : Dbl.ofInt (1 + (n : ℤ)) = Dbl.fin ((n + 1 : ℕ) : ℚ) := by
      have := ofInt_natCast_small (n + 1) (by omega)
      rw [← this]; congr 1; push_cast; ring
    rw [h1]
    have := round_factorial (n + 1) hn
    rw [Nat.factorial_succ] at this ⊢
    simp only [Dbl.mul]
    rw [← this]; congr 1; push_cast; ring

theorem square_all_false (x : ℤ) (n : ℕ) :
    square x (List.replicate n false)
      = if n < 10 then none else some ⟨Dbl.ofInt (wrap32 (x * x)), 10, []⟩ := by
  unfold square
  rw [squareLoop_eq_coop x _ 1 0 (by norm_num) (by norm_num), coop_replicate_false]
  simp

theorem square_root_all_false (x : ℤ) (n : ℕ) :
    square_root x (List.replicate n false)
      = if n < 20 then none else some ⟨Dbl.sqrt (Dbl.ofInt x), 20, []⟩ := by
  unfold square_root
  rw [square_rootLoop_eq_coop x _ 1 0 (by norm_num) (by norm_num), coop_replicate_false]
  simp

theorem factorial_all_false (x : ℤ) (hx : x < 2 ^ 31 - 1) (n : ℕ) :
    factorial x (List.replicate n false)
      = if n < x.toNat then none else some ⟨accum (Dbl.ofInt 1) 1 x.toNat, x.toNat, []⟩ := by
  unfold factorial
  rw [factorialLoop_eq_coop x hx _ 1 _ 0 (by norm_num), coop_replicate_false]
  simp

theorem sqrt_ofInt_pos (x : ℤ) (h0 : 0 < x) (h1 : x < 2 ^ 31) :
    Dbl.sqrt (Dbl.ofInt x) = Dbl.sqrtPos x := by
  rw [Dbl.ofInt_of_small x (by rw [abs_of_pos h0]; omega)]
  have hx : (0 : ℚ) < x := by exact_mod_cast h0
  simp only [Dbl.sqrt, if_neg (not_lt.mpr hx.le), if_neg hx.ne']

/-- C1 (amended). With the flag read as false at every checkpoint: `square`
returns exactly `x * x` after exactly 10 checkpoints whenever `x * x` fits an
`int` (`|x| ≤ 46340`); `factorial` returns exactly `x!` after exactly `x`
checkpoints for `0 ≤ x ≤ 22`; `square_root` returns the `double` square root
of `x` after exactly 20 checkpoints, which is exactly `k` when `x = k * k`,
and for every positive `x` is the binary64 number nearest to the square root
of `x`: a 53-bit significand `m` times `2 ^ u` with `m` within one half of the
square root of `x / 4 ^ u`. -/
theorem completion_law (x : ℤ) (n : ℕ) :
    (|x| ≤ 46340 → square x (List.replicate n false)
        = if n < 10 then none else some ⟨Dbl.fin (x * x), 10, []⟩)
    ∧ (0 ≤ x → x ≤ 22 → factorial x (List.replicate n false)
        = if n < x.toNat then none
          else some ⟨Dbl.fin (x.toNat.factorial : ℚ), x.toNat, []⟩)
    ∧ square_root x (List.replicate n false)
        = (if n < 20 then none else some ⟨Dbl.sqrt (Dbl.ofInt x), 20, []⟩)
    ∧ (0 ≤ x → x ≤ 46340 → square_root (x * x) (List.replicate n false)
        = if n < 20 then none else some ⟨Dbl.fin x, 20, []⟩)
    ∧ (0 < x → x < 2 ^ 31 → ∃ (m : ℕ) (u : ℤ),
        square_root x (List.replicate n false)
          = (if n < 20 then none else some ⟨Dbl.fin ((m : ℚ) * 2 ^ u), 20, []⟩)
        ∧ 2 ^ 52 ≤ m ∧ m ≤ 2 ^ 53
        ∧ ((m : ℚ) - 1 / 2) ^ 2 ≤ (x : ℚ) / 4 ^ u
        ∧ (x : ℚ) / 4 ^ u ≤ ((m : ℚ) + 1 / 2) ^ 2) := by
  refine ⟨?_, ?_, square_root_all_false x n, ?_, ?_⟩
  · intro hx
    have hx2 := abs_le.mp hx
    have hsq : x * x ≤ 46340 * 46340 := by nlinarith
    have hsq0 : 0 ≤ x * x := mul_self_nonneg x
    rw [square_all_false, wrap32_of_range (by omega) (by omega),
      Dbl.ofInt_of_small _ (by rw [abs_of_nonneg hsq0]; omega)]
    push_cast
    rfl
  · intro h0 h22
    rw [factorial_all_false x (by omega), accum_factorial _ (by omega)]
  · intro h0 hk
    rw [square_root_all_false, Dbl.sqrt_ofInt_sq x h0 hk]
  · intro h0 h1
    obtain ⟨m, u, hm, hb⟩ := Dbl.sqrtPos_nearest (x : ℚ) (by exact_mod_cast h0)
    refine ⟨m, u, ?_, hb⟩
    rw [square_root_all_false, sqrt_ofInt_pos x h0 h1, hm]

/-- C1, examples: `square(5) = 25` (and not before the 10th checkpoint),
`factorial(5) = 120`, `sqrt(9) = 3`. -/
theorem completion_law_witness :
    square 5 (List.replicate 10 false) = some ⟨Dbl.fin 25, 10, []⟩
    ∧ square 5 (List.replicate 9 false) = none
    ∧ factorial 5 (List.replicate 5 false) = some ⟨Dbl.fin 120, 5, []⟩
    ∧ square_root 9 (List.replicate 20 false) = some ⟨Dbl.fin 3, 20, []⟩ := by
  refine ⟨?_, ?_, ?_, ?_⟩
  · have h := (completion_law 5 10).1 (by decide)
    norm_num at h ⊢
    exact h
  · have := (completion_law 5 9).1 (by decide)
    simpa using this
  · have := (completion_law 5 5).2.1 (by decide) (by decide)
    simpa [Nat.factorial] using this
  · have := (completion_law 3 20).2.2.2.1 (by decide) (by decide)
    simpa using this

theorem round_factorial_23 :
    Dbl.round (25852016738884976640000 : ℚ) = Dbl.fin 25852016738884978212864 := by
  have hlog : Int.log 2 |(25852016738884976640000 : ℚ)| = 74 := by
    rw [abs_of_nonneg (by norm_num)]
    apply le_antisymm
    · have := (Int.lt_zpow_iff_log_lt (b := 2) (by norm_num)
        (by norm_num : (0 : ℚ) < 25852016738884976640000) (x := 75)).mp (by norm_num)
      omega
    · exact (Int.zpow_le_iff_le_log (b := 2) (by norm_num)
        (by norm_num : (0 : ℚ) < 25852016738884976640000) (x := 74)).mp (by norm_num)
  have hu : Dbl.ulpExp (25852016738884976640000 : ℚ) = 22 := by
    unfold Dbl.ulpExp
    rw [hlog]
    norm_num
  have hfloor : ⌊(25852016738884976640000 : ℚ) / 2 ^ (22 : ℤ)⌋ = 6163601097794765 := by
    rw [Int.floor_eq_iff]
    norm_num
  have hr : Dbl.roundHalfEven ((25852016738884976640000 : ℚ) / 2 ^ (22 : ℤ))
      = 6163601097794766 := by
    unfold Dbl.roundHalfEven
    rw [hfloor]
    norm_num
  unfold Dbl.round
  rw [hu, hr]
  norm_num

/-- C1, counterexample: with the flag false at all 23 checkpoints,
`factorial(23)` returns 25852016738884978212864, which is not 23!. -/
theorem factorial_23_inexact :
    factorial 23 (List.replicate 23 false)
        = some ⟨Dbl.fin 25852016738884978212864, 23, []⟩
    ∧ (25852016738884978212864 : ℚ) ≠ (Nat.factorial 23 : ℚ) := by
  constructor
  · rw [factorial_all_false 23 (by norm_num)]
    have h : (23 : ℤ).toNat = 22 + 1 := by decide
    rw [h, accum_succ_right, accum_factorial 22 (by norm_num)]
    have h1 : Dbl.ofInt (1 + ((22 : ℕ) : ℤ)) = Dbl.fin 23 := by
      have := ofInt_natCast_small 23 (by norm_num)
      simpa using this
    rw [h1]
    simp only [Dbl.mul]
    have h2 : ((Nat.factorial 22 : ℕ) : ℚ) * 23 = 25852016738884976640000 := by
      norm_num [Nat.factorial]
    rw [h2, round_factorial_23]
    simp
  · norm_num [Nat.factorial]

/-- The product `x * x` in `square` is an `int` product: for `x = 46341` it
leaves the range of `int`, and with wrap-around the function returns
-2147479015. -/
theorem square_46341_wraps :
    square 46341 (List.replicate 10 false) = some ⟨Dbl.fin (-2147479015), 10, []⟩ := by
  rw [square_all_false]
  have h : wrap32 (46341 * 46341) = -2147479015 := by decide
  rw [h, Dbl.ofInt_of_small _ (by decide)]
  simp

/-- C2 at the failing input: `square_root(-1)` reads the flag as false at
all 20 checkpoints, goes through all 20 sleeps, prints nothing, and still
returns `NAN`, the value that stands for a cancelled task. -/
theorem square_root_neg_returns_sentinel :
    square_root (-1) (List.replicate 20 false) = some ⟨Dbl.nan, 20, []⟩
    ∧ (∀ b ∈ List.replicate 20 false, b = false) := by
  constructor
  · rw [square_root_all_false, Dbl.sqrt_ofInt_neg (-1) (by decide) (by decide)]
    simp
  · intro b hb
    exact (List.mem_replicate.mp hb).2

/-! ## When a work function returns `NAN` -/

theorem coop_some (msg : String) (v : Dbl) :
    ∀ (n sleeps : ℕ) (reads : List Bool) (r : Ret), coop msg v n sleeps reads = some r →
      (∃ k, k < n ∧ reads[k]? = some true ∧ (∀ j, j < k → reads[j]? = some false)
          ∧ r = ⟨Dbl.nan, sleeps + k, [msg]⟩)
      ∨ ((∀ j, j < n → reads[j]? = some false) ∧ r = ⟨v, sleeps + n, []⟩) := by
  intro n
  induction n with
  | zero =>
    intro sleeps reads r h
    rw [coop_zero] at h
    right
    exact ⟨fun j hj => absurd hj (Nat.not_lt_zero j), (Option.some.inj h).symm⟩
  | succ n ih =>
    intro sleeps reads r h
    cases reads with
    | nil => simp [coop] at h
    | cons b rest =>
      cases b
      · simp only [coop] at h
        rcases ih _ _ _ h with ⟨k, hk, ht, hf, hr⟩ | ⟨hf, hr⟩
        · left
          refine ⟨k + 1, by omega, by simpa using ht, ?_, ?_⟩
          · intro j hj
            cases j with
            | zero => simp
            | succ j => simpa using hf j (by omega)
          · rw [hr]
            congr 1
            omega
        · right
          refine ⟨?_, ?_⟩
          · intro j hj
            cases j with
            | zero => simp
            | succ j => simpa using hf j (by omega)
          · rw [hr]
            congr 1
            omega
      · simp only [coop, Option.some.injEq] at h
        left
        exact ⟨0, by omega, by simp, fun j hj => absurd hj (Nat.not_lt_zero j), h.symm⟩

theorem mul_fin_ne_nan (d : Dbl) (b : ℚ) (hd : d ≠ Dbl.nan) (hb : b ≠ 0) :
    d.mul (Dbl.fin b) ≠ Dbl.nan := by
  cases d with
  | nan => exact absurd rfl hd
  | inf s => simp [Dbl.mul, hb]
  | fin a => exact Dbl.round_ne_nan _

theorem accum_ne_nan : ∀ (n : ℕ) (d : Dbl) (i : ℤ), d ≠ Dbl.nan → 1 ≤ i →
    i + n ≤ 2 ^ 31 → accum d i n ≠ Dbl.nan := by
  intro n
  induction n with
  | zero => intro d i hd _ _; simpa [accum] using hd
  | succ n ih =>
    intro d i hd h1 h2
    rw [accum]
    apply ih
    · rw [Dbl.ofInt_of_small i (by rw [abs_of_nonneg (by omega)]; push_cast at h2; omega)]
      exact mul_fin_ne_nan d i hd (by exact_mod_cast (by omega : i ≠ 0))
    · omega
    · push_cast at h2 ⊢
      omega

theorem sqrt_ofInt_ne_nan (x : ℤ) (h0 : 0 ≤ x) (h1 : x < 2 ^ 31) :
    Dbl.sqrt (Dbl.ofInt x) ≠ Dbl.nan := by
  rw [Dbl.ofInt_of_small x (by rw [abs_of_nonneg h0]; omega)]
  have hx : ¬ (x : ℚ) < 0 := by
    have : (0 : ℚ) ≤ x := by exact_mod_cast h0
    linarith
  simp only [Dbl.sqrt, if_neg hx]
  split_ifs
  · simp
  · simp [Dbl.sqrtPos]

/-- Apart from `square_root` of a negative argument, a work function returns
`NAN` exactly when one of its checkpoints reads the flag as true, all the
checkpoints before it having read false. -/
theorem sentinel_iff_cancelled (f : TaskFunction) (x : ℤ) (reads : List Bool) (r : Ret)
    (hlo : -2 ^ 31 ≤ x) (hhi : x < 2 ^ 31 - 1) (hsq : f = .square_root → 0 ≤ x)
    (h : f.call x reads = some r) :
    r.value = Dbl.nan ↔
      ∃ k, k < checkpoints f x ∧ reads[k]? = some true ∧ ∀ j, j < k → reads[j]? = some false := by
  have key : ∀ (msg : String) (v : Dbl) (n : ℕ), v ≠ Dbl.nan →
      coop msg v n 0 reads = some r →
      (r.value = Dbl.nan ↔
        ∃ k, k < n ∧ reads[k]? = some true ∧ ∀ j, j < k → reads[j]? = some false) := by
    intro msg v n hv hc
    rcases coop_some msg v n 0 reads r hc with ⟨k, hk, ht, hf, hr⟩ | ⟨hf, hr⟩
    · constructor
      · intro _
        exact ⟨k, hk, ht, hf⟩
      · intro _
        rw [hr]
    · constructor
      · intro hn
        rw [hr] at hn
        exact absurd hn hv
      · rintro ⟨k, hk, ht, -⟩
        rw [hf k hk] at ht
        cases ht
  cases f
  · simp only [TaskFunction.call, square] at h
    rw [squareLoop_eq_coop x reads 1 0 (by norm_num) (by norm_num)] at h
    exact key _ _ _ (Dbl.round_ne_nan _) h
  · simp only [TaskFunction.call, square_root] at h
    rw [square_rootLoop_eq_coop x reads 1 0 (by norm_num) (by norm_num)] at h
    exact key _ _ _ (sqrt_ofInt_ne_nan x (hsq rfl) (by omega)) h
  · simp only [TaskFunction.call, factorial] at h
    rw [factorialLoop_eq_coop x hhi reads 1 _ 0 (by norm_num)] at h
    have hv : accum (Dbl.ofInt 1) 1 (x + 1 - 1).toNat ≠ Dbl.nan := by
      apply accum_ne_nan _ _ _ (Dbl.round_ne_nan _) le_rfl
      have : ((x + 1 - 1).toNat : ℤ) ≤ 2 ^ 31 - 1 := by omega
      omega
    have hn : (x + 1 - 1).toNat = checkpoints .factorial x := by
      simp [checkpoints]
    rw [hn] at h hv
    exact key _ _ _ hv h

/-! ## The registry operations -/

theorem lookup_mapSet_self (k : String) (v : List Task) (m : Groups) :
    (mapSet k v m).lookup k = some v := by
  induction m with
  | nil => simp [mapSet, List.lookup]
  | cons p m ih =>
    obtain ⟨k0, v0⟩ := p
    unfold mapSet
    split_ifs with h1 h2
    · simp [List.lookup]
    · simp [List.lookup]
    · have : (k == k0) = false := by simpa using h2
      simp [List.lookup, this, ih]

theorem lookup_mapSet_ne (k : String) (v : List Task) (m : Groups) (k1 : String) (h : k1 ≠ k) :
    (mapSet k v m).lookup k1 = m.lookup k1 := by
  have hk : (k1 == k) = false := by simpa using h
  induction m with
  | nil => simp [mapSet, List.lookup, hk]
  | cons p m ih =>
    obtain ⟨k0, v0⟩ := p
    unfold mapSet
    split_ifs with h1 h2
    · simp [List.lookup, hk]
    · subst h2
      simp [List.lookup, hk]
    · cases h3 : k1 == k0 <;> simp [List.lookup, h3, ih]

/-- C9. `createGroup(name)`: when the group exists, the call reports the
failure on `cerr` and changes nothing else; otherwise the map afterwards
sends `name` to the empty vector and every other name to what it was sent to
before, and `current_group` is unchanged. -/
theorem createGroup_spec (name : String) (g : Globals) :
    ((g.groups.lookup name).isSome →
        (createGroup name g).groups = g.groups
        ∧ (createGroup name g).current_group = g.current_group
        ∧ (createGroup name g).active_tasks = g.active_tasks
        ∧ (createGroup name g).cout = g.cout
        ∧ (createGroup name g).cerr = g.cerr ++ ["Group " ++ name ++ " already exists.\n"])
    ∧ (g.groups.lookup name = none →
        (createGroup name g).groups.lookup name = some []
        ∧ (∀ other, other ≠ name →
            (createGroup name g).groups.lookup other = g.groups.lookup other)
        ∧ (createGroup name g).current_group = g.current_group
        ∧ (createGroup name g).active_tasks = g.active_tasks
        ∧ (createGroup name g).cerr = g.cerr) := by
  constructor
  · intro h
    obtain ⟨v, hv⟩ := Option.isSome_iff_exists.mp h
    simp [createGroup, hv]
  · intro h
    simp only [createGroup, h]
    refine ⟨lookup_mapSet_self _ _ _, fun other ho => lookup_mapSet_ne _ _ _ _ ho, ?_, ?_, ?_⟩
      <;> first | rfl | trivial

/-- C8. `addTask`: when the group does not exist, the call reports the
failure on `cerr` and changes nothing else; otherwise the vector of the group
becomes the old vector followed by one task with the given name, function,
argument and timeout, the result `NAN` and a flag that is false, every other
group is sent to what it was sent to before, and `current_group` is
unchanged.  Nothing is required of the task name. -/
theorem addTask_spec (group_name task_name : String) (func : TaskFunction)
    (argument timeout_ms : ℤ) (g : Globals) :
    (g.groups.lookup group_name = none →
        (addTask group_name task_name func argument timeout_ms g).groups = g.groups
        ∧ (addTask group_name task_name func argument timeout_ms g).current_group
            = g.current_group
        ∧ (addTask group_name task_name func argument timeout_ms g).active_tasks
            = g.active_tasks
        ∧ (addTask group_name task_name func argument timeout_ms g).cout = g.cout
        ∧ (addTask group_name task_name func argument timeout_ms g).cerr
            = g.cerr ++ ["Group " ++ group_name ++ " does not exist.\n"])
    ∧ (∀ tasks, g.groups.lookup group_name = some tasks →
        (addTask group_name task_name func argument timeout_ms g).groups.lookup group_name
            = some (tasks ++ [⟨task_name, func, argument, timeout_ms, Dbl.nan, false⟩])
        ∧ (∀ other, other ≠ group_name →
            (addTask group_name task_name func argument timeout_ms g).groups.lookup other
              = g.groups.lookup other)
        ∧ (addTask group_name task_name func argument timeout_ms g).current_group
            = g.current_group
        ∧ (addTask group_name task_name func argument timeout_ms g).active_tasks
            = g.active_tasks
        ∧ (addTask group_name task_name func argument timeout_ms g).cerr = g.cerr) := by
  constructor
  · intro h
    simp [addTask, h]
  · intro tasks h
    simp only [addTask, h]
    refine ⟨lookup_mapSet_self _ _ _, fun other ho => lookup_mapSet_ne _ _ _ _ ho, ?_, ?_, ?_⟩
      <;> first | rfl | trivial

/-- C5. `handleCtrlC`: afterwards the flag of every task of every group is
true; the groups, their order, and the names, functions, arguments, timeouts
and results of their tasks in order are the same (the maps agree once the
flags are disregarded), as are `current_group` and `active_tasks`; and a
second call leaves the global variables as the first call left them. -/
theorem handleCtrlC_spec (g : Globals) :
    (∀ p ∈ (handleCtrlC g).groups, ∀ t ∈ p.2, t.cancel_flag = true)
    ∧ ((handleCtrlC g).groups.map fun p =>
          (p.1, p.2.map fun t => (t.name, t.func, t.argument, t.timeout_ms, t.result)))
        = (g.groups.map fun p =>
          (p.1, p.2.map fun t => (t.name, t.func, t.argument, t.timeout_ms, t.result)))
    ∧ (handleCtrlC g).current_group = g.current_group
    ∧ (handleCtrlC g).active_tasks = g.active_tasks
    ∧ (handleCtrlC g).cerr = g.cerr
    ∧ (handleCtrlC (handleCtrlC g)).groups = (handleCtrlC g).groups
    ∧ (handleCtrlC (handleCtrlC g)).current_group = (handleCtrlC g).current_group
    ∧ (handleCtrlC (handleCtrlC g)).active_tasks = (handleCtrlC g).active_tasks := by
  refine ⟨?_, ?_, rfl, rfl, rfl, ?_, rfl, rfl⟩
  · intro p hp t ht
    simp only [handleCtrlC, List.mem_map] at hp
    obtain ⟨p0, _, rfl⟩ := hp
    simp only [List.mem_map] at ht
    obtain ⟨t0, _, rfl⟩ := ht
    rfl
  · simp [handleCtrlC, Task.cancel, Function.comp_def]
  · simp [handleCtrlC, Task.cancel, Function.comp_def]

/-! ## Invariants of runGroup -/

theorem exec_append (s : RunState) (as bs : List Action) :
    exec s (as ++ bs) = (exec s as).bind fun s1 => exec s1 bs := by
  induction as generalizing s with
  | nil => simp [exec]
  | cons a as ih =>
    simp only [List.cons_append, exec]
    cases step s a with
    | none => simp
    | some s1 => simpa using ih s1

/-- A property that holds initially and is kept by every step holds after
every sequence of steps. -/
theorem exec_invariant (P : RunState → Prop)
    (hstep : ∀ s a s1, P s → step s a = some s1 → P s1) :
    ∀ (as : List Action) (s s1 : RunState), P s → exec s as = some s1 → P s1 := by
  intro as
  induction as with
  | nil =>
    intro s s1 hs h
    simp only [exec, Option.some.injEq] at h
    exact h ▸ hs
  | cons a as ih =>
    intro s s1 hs h
    simp only [exec] at h
    cases hst : step s a with
    | none => simp [hst] at h
    | some s2 =>
      rw [hst] at h
      exact ih s2 s1 (hstep s a s2 hs hst) h

theorem workerStep_facts {now : ℕ} {sl sl1 : Slot} {dec : Bool} {out : List String}
    (h : workerStep now sl = some (sl1, dec, out)) :
    sl.worker ≠ .unspawned ∧ sl.worker ≠ .done ∧ sl1.worker ≠ .unspawned
    ∧ sl1.task.job = sl.task.job
    ∧ sl1.task.cancel_flag = sl.task.cancel_flag
    ∧ sl1.worker.finished = (sl.worker.finished || dec)
    ∧ (dec = true → sl.worker.finished = false) := by
  obtain ⟨task, reads, start, worker, watcher⟩ := sl
  cases worker <;> simp only [workerStep] at h
  all_goals repeat' (split at h)
  all_goals first
    | (simp at h; done)
    | (simp only [Option.some.injEq, Prod.mk.injEq] at h
       obtain ⟨rfl, rfl, rfl⟩ := h
       simp_all [WorkerPc.finished, Task.job])

theorem watcherStep_facts {now : ℕ} {sl sl1 : Slot} (h : watcherStep now sl = some sl1) :
    sl1.worker = sl.worker ∧ sl1.task.job = sl.task.job ∧ sl1.reads = sl.reads
    ∧ sl1.task.result = sl.task.result ∧ sl1.start_time = sl.start_time
    ∧ (sl.task.cancel_flag = true → sl1.task.cancel_flag = true)
    ∧ (sl1.watcher = .done → sl1.task.cancel_flag = true)
    ∧ sl.watcher ≠ .unspawned ∧ sl1.watcher ≠ .unspawned := by
  obtain ⟨task, reads, start, worker, watcher⟩ := sl
  cases watcher <;> simp only [watcherStep] at h
  all_goals repeat' (split at h)
  all_goals first
    | (simp at h; done)
    | (simp only [Option.some.injEq] at h
       subst h
       simp_all [Task.job, Task.cancel])

theorem call_pending_true (f : TaskFunction) (x : ℤ) (reads : List Bool)
    (h : f.call x reads = none) :
    ∃ r, f.call x (reads ++ [true]) = some r ∧ r.value = Dbl.nan := by
  have sq : ∀ (reads : List Bool) (i : ℤ) (n : ℕ), squareLoop x i n reads = none →
      ∃ r, squareLoop x i n (reads ++ [true]) = some r ∧ r.value = Dbl.nan := by
    intro reads
    induction reads with
    | nil =>
      intro i n h
      by_cases hi : i ≤ 10 <;> simp_all [squareLoop]
    | cons b reads ih =>
      intro i n h
      by_cases hi : i ≤ 10
      · cases b
        · simp only [squareLoop, if_pos hi] at h ⊢
          simpa using ih _ _ (by simpa using h)
        · simp [squareLoop, hi] at h
      · simp [squareLoop, hi] at h
  have sr : ∀ (reads : List Bool) (i : ℤ) (n : ℕ), square_rootLoop x i n reads = none →
      ∃ r, square_rootLoop x i n (reads ++ [true]) = some r ∧ r.value = Dbl.nan := by
    intro reads
    induction reads with
    | nil =>
      intro i n h
      by_cases hi : i ≤ 20 <;> simp_all [square_rootLoop]
    | cons b reads ih =>
      intro i n h
      by_cases hi : i ≤ 20
      · cases b
        · simp only [square_rootLoop, if_pos hi] at h ⊢
          simpa using ih _ _ (by simpa using h)
        · simp [square_rootLoop, hi] at h
      · simp [square_rootLoop, hi] at h
  have fa : ∀ (reads : List Bool) (i : ℤ) (res : Dbl) (n : ℕ),
      factorialLoop x i res n reads = none →
      ∃ r, factorialLoop x i res n (reads ++ [true]) = some r ∧ r.value = Dbl.nan := by
    intro reads
    induction reads with
    | nil =>
      intro i res n h
      by_cases hi : i ≤ x <;> simp_all [factorialLoop]
    | cons b reads ih =>
      intro i res n h
      by_cases hi : i ≤ x
      · cases b
        · simp only [factorialLoop, if_pos hi] at h ⊢
          simpa using ih _ _ _ (by simpa using h)
        · simp [factorialLoop, hi] at h
      · simp [factorialLoop, hi] at h
  cases f
  · exact sq reads 1 0 h
  · exact sr reads 1 0 h
  · exact fa reads 1 _ 0 h

theorem call_pending_all_false (f : TaskFunction) (x : ℤ) (reads : List Bool)
    (h : f.call x reads = none) : ∀ b ∈ reads, b = false := by
  have sq : ∀ (reads : List Bool) (i : ℤ) (n : ℕ), squareLoop x i n reads = none →
      ∀ b ∈ reads, b = false := by
    intro reads
    induction reads with
    | nil => simp
    | cons b reads ih =>
      intro i n h
      by_cases hi : i ≤ 10
      · cases b
        · simp only [squareLoop, if_pos hi] at h
          simpa using ih _ _ (by simpa using h)
        · simp [squareLoop, hi] at h
      · simp [squareLoop, hi] at h
  have sr : ∀ (reads : List Bool) (i : ℤ) (n : ℕ), square_rootLoop x i n reads = none →
      ∀ b ∈ reads, b = false := by
    intro reads
    induction reads with
    | nil => simp
    | cons b reads ih =>
      intro i n h
      by_cases hi : i ≤ 20
      · cases b
        · simp only [square_rootLoop, if_pos hi] at h
          simpa using ih _ _ (by simpa using h)
        · simp [square_rootLoop, hi] at h
      · simp [square_rootLoop, hi] at h
  have fa : ∀ (reads : List Bool) (i : ℤ) (res : Dbl) (n : ℕ),
      factorialLoop x i res n reads = none → ∀ b ∈ reads, b = false := by
    intro reads
    induction reads with
    | nil => simp
    | cons b reads ih =>
      intro i res n h
      by_cases hi : i ≤ x
      · cases b
        · simp only [factorialLoop, if_pos hi] at h
          simpa using ih _ _ _ (by simpa using h)
        · simp [factorialLoop, hi] at h
      · simp [factorialLoop, hi] at h
  cases f
  · exact sq reads 1 0 h
  · exact sr reads 1 0 h
  · exact fa reads 1 _ 0 h

theorem slotOk_workerStep {now : ℕ} {sl sl1 : Slot} {dec : Bool} {out : List String}
    (h : workerStep now sl = some (sl1, dec, out)) (ok : SlotOk sl) : SlotOk sl1 := by
  obtain ⟨task, reads, start, worker, watcher⟩ := sl
  obtain ⟨h1, h2, h3, h4, h5, h6, h7⟩ := ok
  cases worker <;> simp only [workerStep] at h
  all_goals repeat' (split at h)
  all_goals first
    | (simp at h; done)
    | (simp only [Option.some.injEq, Prod.mk.injEq] at h
       obtain ⟨rfl, rfl, rfl⟩ := h
       constructor <;>
         simp_all [WorkerPc.finished, WorkerPc.stored, WorkerPc.joined, WorkerPc.fresh])
  all_goals
    intro pre
    refine ⟨fun hpre => ?_, fun hpre => ?_⟩
  all_goals first
    | (have hh := List.append_inj' hpre rfl; simp at hh)
    | (subst hpre; assumption)

theorem slotOk_watcherStep {now : ℕ} {sl sl1 : Slot}
    (h : watcherStep now sl = some sl1) (ok : SlotOk sl) : SlotOk sl1 := by
  obtain ⟨task, reads, start, worker, watcher⟩ := sl
  obtain ⟨h1, h2, h3, h4, h5, h6, h7⟩ := ok
  cases watcher <;> simp only [watcherStep] at h
  all_goals repeat' (split at h)
  all_goals first
    | (simp at h; done)
    | (simp only [Option.some.injEq] at h
       subst h
       constructor <;>
         simp_all [WorkerPc.finished, WorkerPc.stored, WorkerPc.joined, WorkerPc.fresh,
           Task.cancel])

theorem slotOk_cancel {sl : Slot} (ok : SlotOk sl) :
    SlotOk { sl with task := sl.task.cancel } := by
  obtain ⟨h1, h2, h3, h4, h5, h6, h7⟩ := ok
  constructor <;> simp_all [Task.cancel]

theorem slotOk_entry {sl : Slot} (hw : sl.worker = .unspawned) (ok : SlotOk sl) :
    SlotOk { sl with worker := .entry } := by
  obtain ⟨h1, h2, h3, h4, h5, h6, h7⟩ := ok
  constructor <;>
    simp_all [WorkerPc.finished, WorkerPc.stored, WorkerPc.joined, WorkerPc.fresh]

theorem mainOk_worker {main : MainPc} {active : ℤ} {pcs : List WorkerPc} {k : ℕ}
    {w w1 : WorkerPc} {dec : Bool} (ok : MainOk main active pcs) (hk : pcs[k]? = some w)
    (hw : w ≠ .unspawned) (hd : w ≠ .done) (hfin : w1.finished = (w.finished || dec))
    (hdec : dec = true → w.finished = false) (hw1 : w1 ≠ .unspawned) :
    MainOk main (if dec then active - 1 else active) (pcs.set k w1) := by
  have hmem : w ∈ pcs := List.mem_iff_getElem?.mpr ⟨k, hk⟩
  have hklt : k < pcs.length := (List.getElem?_eq_some.mp hk).1
  have hkget : pcs[k] = w := (List.getElem?_eq_some.mp hk).2
  constructor
  · intro hm
    exact absurd (ok.not_started hm w hmem) hw
  · intro j hm k1 w2 hk1 hj
    rw [List.getElem?_set] at hk1
    split_ifs at hk1 with h1
    · subst h1
      exact absurd (ok.to_spawn j hm k w hk hj) hw
    · exact ok.to_spawn j hm k1 w2 hk1 hj
  · intro hm
    have hc := ok.count hm
    rw [List.length_set, List.countP_set _ _ _ _ hklt, hkget]
    have hpos : w.finished = true → 0 < pcs.countP WorkerPc.finished :=
      fun hf => List.countP_pos_iff.mpr ⟨w, hmem, hf⟩
    cases hf : w.finished
    · cases hdc : dec
      · have hf1 : w1.finished = false := by rw [hfin, hf, hdc]; rfl
        simp only [hf, hf1, Bool.false_eq_true, if_false]
        omega
      · have hf1 : w1.finished = true := by rw [hfin, hf, hdc]; rfl
        simp only [hf, hf1, Bool.false_eq_true, if_false, if_true]
        omega
    · have hdc : dec = false := by
        cases hdc : dec
        · rfl
        · rw [hdec hdc] at hf; cases hf
      have hf1 : w1.finished = true := by rw [hfin, hf, hdc]; rfl
      have := hpos hf
      simp only [hf, hf1, hdc, Bool.false_eq_true, if_false, if_true]
      omega
  · intro j hm k1 w2 hk1 hj
    rw [List.getElem?_set] at hk1
    split_ifs at hk1 with h1
    · subst h1
      exact absurd (ok.joined j hm k w hk hj) hd
    · exact ok.joined j hm k1 w2 hk1 hj
  · intro hm
    exact absurd (ok.all_done hm w hmem) hd
  · intro k1 w2 hk1 hun
    rw [List.getElem?_set] at hk1
    split_ifs at hk1 with h1
    · cases hk1
      exact absurd hun hw1
    · exact ok.spawned k1 w2 hk1 hun

theorem mainOk_setCount {active : ℤ} {pcs : List WorkerPc} (ok : MainOk .setCount active pcs) :
    MainOk (.spawn 0) pcs.length pcs := by
  have hall := ok.not_started rfl
  constructor
  · intro h; cases h
  · intro j _ k w hk _
    exact hall w (List.mem_iff_getElem?.mpr ⟨k, hk⟩)
  · intro _
    have : pcs.countP WorkerPc.finished = 0 := by
      rw [List.countP_eq_zero]
      intro w hw
      rw [hall w hw]
      simp [WorkerPc.finished]
    simp [this]
  · intro j h; cases h
  · intro h; cases h
  · intro k w _ _
    exact Or.inr ⟨0, rfl, Nat.zero_le k⟩

theorem mainOk_spawn {active : ℤ} {pcs : List WorkerPc} {j : ℕ} {w : WorkerPc}
    (ok : MainOk (.spawn j) active pcs) (hj : pcs[j]? = some w) :
    MainOk (.spawn (j + 1)) active (pcs.set j .entry) := by
  have hw : w = .unspawned := ok.to_spawn j rfl j w hj le_rfl
  have hklt : j < pcs.length := (List.getElem?_eq_some.mp hj).1
  have hkget : pcs[j] = w := (List.getElem?_eq_some.mp hj).2
  constructor
  · intro h; cases h
  · intro j1 hm k w2 hk hle
    cases hm
    rw [List.getElem?_set_ne (by omega)] at hk
    exact ok.to_spawn j rfl k w2 hk (by omega)
  · intro _
    have hc := ok.count (by simp)
    rw [List.length_set, List.countP_set _ _ _ _ hklt, hkget, hw]
    simpa [WorkerPc.finished] using hc
  · intro j1 h; cases h
  · intro h; cases h
  · intro k w2 hk hun
    rw [List.getElem?_set] at hk
    split_ifs at hk with h1
    · cases hk
      cases hun
    · rcases ok.spawned k w2 hk hun with h | ⟨j1, h, hle⟩
      · cases h
      · cases h
        exact Or.inr ⟨j + 1, rfl, by omega⟩

theorem mainOk_wait {active : ℤ} {pcs : List WorkerPc} {j : ℕ}
    (ok : MainOk (.spawn j) active pcs) (hj : pcs[j]? = none) : MainOk .wait active pcs := by
  have hlen : pcs.length ≤ j := by
    by_contra h
    push_neg at h
    rw [List.getElem?_eq_getElem h] at hj
    cases hj
  constructor
  · intro h; cases h
  · intro j1 h; cases h
  · intro _; exact ok.count (by simp)
  · intro j1 h; cases h
  · intro h; cases h
  · intro k w hk hun
    exfalso
    have hklt : k < pcs.length := (List.getElem?_eq_some.mp hk).1
    rcases ok.spawned k w hk hun with h | ⟨j1, h, hle⟩
    · cases h
    · cases h
      omega

theorem mainOk_join_zero {active : ℤ} {pcs : List WorkerPc}
    (ok : MainOk .wait active pcs) : MainOk (.join 0) active pcs := by
  constructor
  · intro h; cases h
  · intro j1 h; cases h
  · intro _; exact ok.count (by simp)
  · intro j1 hm k w _ hk
    cases hm
    omega
  · intro h; cases h
  · intro k w hk hun
    rcases ok.spawned k w hk hun with h | ⟨j1, h, -⟩ <;> cases h

theorem mainOk_join_succ {active : ℤ} {pcs : List WorkerPc} {j : ℕ}
    (ok : MainOk (.join j) active pcs) (hj : pcs[j]? = some .done) :
    MainOk (.join (j + 1)) active pcs := by
  constructor
  · intro h; cases h
  · intro j1 h; cases h
  · intro _; exact ok.count (by simp)
  · intro j1 hm k w hk hlt
    cases hm
    rcases Nat.lt_succ_iff_lt_or_eq.mp hlt with h | h
    · exact ok.joined j rfl k w hk h
    · subst h
      rw [hj] at hk
      exact (Option.some.inj hk).symm
  · intro h; cases h
  · intro k w hk hun
    rcases ok.spawned k w hk hun with h | ⟨j1, h, -⟩ <;> cases h

theorem mainOk_done {active : ℤ} {pcs : List WorkerPc} {j : ℕ}
    (ok : MainOk (.join j) active pcs) (hj : pcs[j]? = none) : MainOk .done active pcs := by
  have hlen : pcs.length ≤ j := by
    by_contra h
    push_neg at h
    rw [List.getElem?_eq_getElem h] at hj
    cases hj
  constructor
  · intro h; cases h
  · intro j1 h; cases h
  · intro _; exact ok.count (by simp)
  · intro j1 h; cases h
  · intro _ w hw
    obtain ⟨k, hk⟩ := List.mem_iff_getElem?.mp hw
    have hklt : k < pcs.length := (List.getElem?_eq_some.mp hk).1
    exact ok.joined j rfl k w hk (by omega)
  · intro k w hk hun
    rcases ok.spawned k w hk hun with h | ⟨j1, h, -⟩ <;> cases h

theorem inv_set {tasks : List Task} {s : RunState} {k : ℕ} {sl sl1 : Slot}
    (inv : Inv tasks s) (hk : s.slots[k]? = some sl) (hok : SlotOk sl1)
    (hjob : sl1.task.job = sl.task.job) :
    (∀ x ∈ s.slots.set k sl1, SlotOk x)
    ∧ (s.slots.set k sl1).map (fun sl => sl.task.job) = tasks.map Task.job := by
  constructor
  · intro x hx
    rcases List.mem_or_eq_of_mem_set hx with h | h
    · exact inv.slots_ok x h
    · exact h ▸ hok
  · rw [List.map_set, ← inv.jobs]
    apply List.ext_getElem?
    intro i
    rw [List.getElem?_set]
    split_ifs with h1 h2
    · subst h1
      rw [List.getElem?_map, hk, hjob]
      rfl
    · subst h1
      rw [List.getElem?_eq_none (by omega)]
    · rfl

theorem inv_step {tasks : List Task} {s s1 : RunState} {a : Action}
    (inv : Inv tasks s) (h : step s a = some s1) : Inv tasks s1 := by
  cases a with
  | main =>
    simp only [step, mainStep] at h
    have ok := inv.main_ok
    split at h
    · next hm =>
      simp only [Option.some.injEq] at h
      subst h
      rw [hm] at ok
      refine ⟨inv.slots_ok, inv.jobs, ?_⟩
      have := mainOk_setCount ok
      simpa using this
    · next j hm =>
      rw [hm] at ok
      split at h
      · next sl hj =>
        simp only [Option.some.injEq] at h
        subst h
        have hpc : (s.slots.map Slot.worker)[j]? = some sl.worker := by
          rw [List.getElem?_map, hj]; rfl
        have hun : sl.worker = .unspawned := ok.to_spawn j rfl j _ hpc le_rfl
        have hentry : SlotOk ({ sl with worker := .entry } : Slot) :=
          slotOk_entry hun (inv.slots_ok sl (List.mem_iff_getElem?.mpr ⟨j, hj⟩))
        obtain ⟨h1, h2⟩ := inv_set inv hj hentry rfl
        refine ⟨h1, h2, ?_⟩
        have := mainOk_spawn ok hpc
        simpa [List.map_set] using this
      · next hj =>
        simp only [Option.some.injEq] at h
        subst h
        have hpc : (s.slots.map Slot.worker)[j]? = none := by
          rw [List.getElem?_map, hj]; rfl
        exact ⟨inv.slots_ok, inv.jobs, mainOk_wait ok hpc⟩
    · next hm =>
      rw [hm] at ok
      split_ifs at h with h0
      simp only [Option.some.injEq] at h
      subst h
      exact ⟨inv.slots_ok, inv.jobs, mainOk_join_zero ok⟩
    · next j hm =>
      rw [hm] at ok
      split at h
      · next sl hj =>
        split_ifs at h with hd
        simp only [Option.some.injEq] at h
        subst h
        have hpc : (s.slots.map Slot.worker)[j]? = some .done := by
          rw [List.getElem?_map, hj, ← hd]; rfl
        exact ⟨inv.slots_ok, inv.jobs, mainOk_join_succ ok hpc⟩
      · next hj =>
        simp only [Option.some.injEq] at h
        subst h
        have hpc : (s.slots.map Slot.worker)[j]? = none := by
          rw [List.getElem?_map, hj]; rfl
        exact ⟨inv.slots_ok, inv.jobs, mainOk_done ok hpc⟩
    · simp at h
  | worker k =>
    simp only [step] at h
    split at h
    · simp at h
    · next sl hk =>
      split at h
      · simp at h
      · next sl1 dec out hws =>
        simp only [Option.some.injEq] at h
        subst h
        obtain ⟨f1, f2, f3, f4, -, f6, f7⟩ := workerStep_facts hws
        obtain ⟨h1, h2⟩ := inv_set inv hk
          (slotOk_workerStep hws (inv.slots_ok sl (List.mem_iff_getElem?.mpr ⟨k, hk⟩))) f4
        refine ⟨h1, h2, ?_⟩
        have hpc : (s.slots.map Slot.worker)[k]? = some sl.worker := by
          rw [List.getElem?_map, hk]; rfl
        have := mainOk_worker inv.main_ok hpc f1 f2 f6 f7 f3
        simpa [List.map_set] using this
  | watcher k =>
    simp only [step] at h
    split at h
    · simp at h
    · next sl hk =>
      split at h
      · simp at h
      · next sl1 hws =>
        simp only [Option.some.injEq] at h
        subst h
        obtain ⟨f1, f2, -⟩ := watcherStep_facts hws
        obtain ⟨h1, h2⟩ := inv_set inv hk
          (slotOk_watcherStep hws (inv.slots_ok sl (List.mem_iff_getElem?.mpr ⟨k, hk⟩))) f2
        refine ⟨h1, h2, ?_⟩
        have hpcs : (s.slots.set k sl1).map Slot.worker = s.slots.map Slot.worker := by
          rw [List.map_set, f1]
          apply List.ext_getElem?
          intro i
          rw [List.getElem?_set]
          split_ifs with h3 h4
          · subst h3
            rw [List.getElem?_map, hk]; rfl
          · subst h3
            rw [List.getElem?_eq_none (by simpa using h4)]
          · rfl
        simpa [hpcs] using inv.main_ok
  | tick d =>
    simp only [step, Option.some.injEq] at h
    subst h
    exact ⟨inv.slots_ok, inv.jobs, inv.main_ok⟩
  | ctrlC =>
    simp only [step, Option.some.injEq] at h
    subst h
    refine ⟨?_, ?_, ?_⟩
    · intro x hx
      simp only [List.mem_map] at hx
      obtain ⟨sl, hsl, rfl⟩ := hx
      exact slotOk_cancel (inv.slots_ok sl hsl)
    · simp only [List.map_map]
      rw [← inv.jobs]
      rfl
    · have : (s.slots.map fun sl => ({ sl with task := sl.task.cancel } : Slot)).map Slot.worker
          = s.slots.map Slot.worker := by
        simp only [List.map_map]
        rfl
      simpa [this, handleCtrlC] using inv.main_ok

theorem inv_init {name : String} {g : Globals} {s : RunState} {tasks : List Task}
    (hl : g.groups.lookup name = some tasks) (h : runGroup name g = .inr s) : Inv tasks s := by
  simp only [runGroup, hl, Sum.inr.injEq] at h
  subst h
  refine ⟨?_, ?_, ?_⟩
  · intro sl hsl
    simp only [List.mem_map] at hsl
    obtain ⟨t, _, rfl⟩ := hsl
    constructor <;> simp [WorkerPc.joined, WorkerPc.fresh, WorkerPc.stored]
  · simp [Function.comp_def]
  · constructor
    · intro _ w hw
      simp only [List.map_map, List.mem_map] at hw
      obtain ⟨t, _, rfl⟩ := hw
      rfl
    · intro j h; cases h
    · intro h; exact absurd rfl h
    · intro j h; cases h
    · intro h; cases h
    · intro _ _ _ _
      exact Or.inl rfl

theorem inv_exec {name : String} {g : Globals} {s0 s : RunState} {tasks : List Task}
    (hl : g.groups.lookup name = some tasks) (h0 : runGroup name g = .inr s0)
    (as : List Action) (h : exec s0 as = some s) : Inv tasks s :=
  exec_invariant (Inv tasks) (fun _ _ _ hi hs => inv_step hi hs) as s0 s (inv_init hl h0) h

/-! ## Following one task through an execution -/

theorem step_length {s s1 : RunState} {a : Action} (h : step s a = some s1) :
    s1.slots.length = s.slots.length := by
  cases a <;> simp only [step, mainStep] at h
  all_goals repeat' (split at h)
  all_goals first
    | (simp at h; done)
    | (simp only [Option.some.injEq] at h
       subst h
       simp)

theorem exec_length {s s1 : RunState} (as : List Action) (h : exec s as = some s1) :
    s1.slots.length = s.slots.length :=
  exec_invariant (fun x => x.slots.length = s.slots.length)
    (fun _ _ _ hs hst => (step_length hst).trans hs) as s s1 rfl h

/-- A property of the task at index `k` and its threads that is kept by the
steps of the two threads, by `handleCtrlC` and by the creation of the worker
is kept by every step of the execution other than the advance of the clock. -/
theorem slot_step {tasks : List Task} {s s1 : RunState} {a : Action} {k : ℕ}
    (Q : ℕ → Slot → Prop)
    (hentry : ∀ now sl, Q now sl → sl.worker = .unspawned → Q now { sl with worker := .entry })
    (hworker : ∀ now sl sl1 dec out, Q now sl → SlotOk sl →
      workerStep now sl = some (sl1, dec, out) → Q now sl1)
    (hwatcher : ∀ now sl sl1, Q now sl → SlotOk sl → watcherStep now sl = some sl1 → Q now sl1)
    (hcancel : ∀ now sl, Q now sl → SlotOk sl → Q now { sl with task := sl.task.cancel })
    (inv : Inv tasks s) (hQ : ∃ sl, s.slots[k]? = some sl ∧ Q s.now sl)
    (hnt : ∀ d, a ≠ .tick d) (h : step s a = some s1) :
    ∃ sl1, s1.slots[k]? = some sl1 ∧ Q s1.now sl1 := by
  obtain ⟨sl, hk, hq⟩ := hQ
  have hklt : k < s.slots.length := (List.getElem?_eq_some.mp hk).1
  have hok : SlotOk sl := inv.slots_ok sl (List.mem_iff_getElem?.mpr ⟨k, hk⟩)
  cases a with
  | main =>
    simp only [step, mainStep] at h
    split at h
    · simp only [Option.some.injEq] at h
      subst h
      exact ⟨sl, hk, hq⟩
    · next j hm =>
      split at h
      · next slj hj =>
        simp only [Option.some.injEq] at h
        subst h
        have hpc : (s.slots.map Slot.worker)[j]? = some slj.worker := by
          rw [List.getElem?_map, hj]; rfl
        have hun : slj.worker = .unspawned := inv.main_ok.to_spawn j hm j _ hpc le_rfl
        by_cases hjk : j = k
        · subst hjk
          rw [hk] at hj
          cases hj
          exact ⟨_, List.getElem?_set_self hklt, hentry _ _ hq hun⟩
        · exact ⟨sl, by simpa [List.getElem?_set_ne hjk] using hk, hq⟩
      · simp only [Option.some.injEq] at h
        subst h
        exact ⟨sl, hk, hq⟩
    · split_ifs at h
      simp only [Option.some.injEq] at h
      subst h
      exact ⟨sl, hk, hq⟩
    · split at h
      · split_ifs at h
        simp only [Option.some.injEq] at h
        subst h
        exact ⟨sl, hk, hq⟩
      · simp only [Option.some.injEq] at h
        subst h
        exact ⟨sl, hk, hq⟩
    · simp at h
  | worker j =>
    simp only [step] at h
    split at h
    · simp at h
    · next slj hj =>
      split at h
      · simp at h
      · next sl1 dec out hws =>
        simp only [Option.some.injEq] at h
        subst h
        by_cases hjk : j = k
        · subst hjk
          rw [hk] at hj
          cases hj
          exact ⟨_, List.getElem?_set_self hklt, hworker _ _ _ _ _ hq hok hws⟩
        · exact ⟨sl, by simpa [List.getElem?_set_ne hjk] using hk, hq⟩
  | watcher j =>
    simp only [step] at h
    split at h
    · simp at h
    · next slj hj =>
      split at h
      · simp at h
      · next sl1 hws =>
        simp only [Option.some.injEq] at h
        subst h
        by_cases hjk : j = k
        · subst hjk
          rw [hk] at hj
          cases hj
          exact ⟨_, List.getElem?_set_self hklt, hwatcher _ _ _ hq hok hws⟩
        · exact ⟨sl, by simpa [List.getElem?_set_ne hjk] using hk, hq⟩
  | tick d => exact absurd rfl (hnt d)
  | ctrlC =>
    simp only [step, Option.some.injEq] at h
    subst h
    exact ⟨_, by simp [List.getElem?_map, hk], hcancel _ _ hq hok⟩

/-- The same for a property that does not depend on the clock, along a whole
execution. -/
theorem slot_exec {tasks : List Task} {k : ℕ} (Q : Slot → Prop)
    (hentry : ∀ sl, Q sl → sl.worker = .unspawned → Q { sl with worker := .entry })
    (hworker : ∀ now sl sl1 dec out, Q sl → SlotOk sl →
      workerStep now sl = some (sl1, dec, out) → Q sl1)
    (hwatcher : ∀ now sl sl1, Q sl → SlotOk sl → watcherStep now sl = some sl1 → Q sl1)
    (hcancel : ∀ sl, Q sl → SlotOk sl → Q { sl with task := sl.task.cancel })
    (as : List Action) (s s1 : RunState) (inv : Inv tasks s)
    (hQ : ∃ sl, s.slots[k]? = some sl ∧ Q sl) (h : exec s as = some s1) :
    ∃ sl1, s1.slots[k]? = some sl1 ∧ Q sl1 := by
  have := exec_invariant (fun x => Inv tasks x ∧ ∃ sl, x.slots[k]? = some sl ∧ Q sl) (by
    intro x a x1 hx hst
    refine ⟨inv_step hx.1 hst, ?_⟩
    by_cases hnt : ∀ d, a ≠ .tick d
    · exact slot_step (fun _ => Q) (fun _ => hentry) hworker hwatcher (fun _ => hcancel)
        hx.1 hx.2 hnt hst
    · push_neg at hnt
      obtain ⟨d, rfl⟩ := hnt
      simp only [step, Option.some.injEq] at hst
      subst hst
      exact hx.2) as s s1 ⟨inv, hQ⟩ h
  exact this.2

/-! ## runGroup can always return -/

theorem inv_exec_from {tasks : List Task} {s s1 : RunState} (as : List Action)
    (inv : Inv tasks s) (h : exec s as = some s1) : Inv tasks s1 :=
  exec_invariant (Inv tasks) (fun _ _ _ hi hs => inv_step hi hs) as s s1 inv h

theorem local_refl (k : ℕ) (s : RunState) : Local k s s := ⟨rfl, rfl, fun _ _ => rfl⟩

theorem local_trans {k : ℕ} {s s1 s2 : RunState} (h1 : Local k s s1) (h2 : Local k s1 s2) :
    Local k s s2 :=
  ⟨h2.1.trans h1.1, h2.2.1.trans h1.2.1, fun j hj => (h2.2.2 j hj).trans (h1.2.2 j hj)⟩

theorem exec_tick_worker {s : RunState} {k d : ℕ} {sl sl1 : Slot} {dec : Bool}
    {out : List String} (hk : s.slots[k]? = some sl)
    (hw : workerStep (s.now + d) sl = some (sl1, dec, out)) :
    ∃ s1, exec s [.tick d, .worker k] = some s1 ∧ Local k s s1
      ∧ s1.slots[k]? = some sl1 := by
  have hklt : k < s.slots.length := (List.getElem?_eq_some.mp hk).1
  refine ⟨{ s with
      slots := s.slots.set k sl1
      now := s.now + d
      g := { s.g with
        active_tasks := if dec then s.g.active_tasks - 1 else s.g.active_tasks
        cout := s.g.cout ++ out } }, ?_, ⟨rfl, ?_, ?_⟩, ?_⟩
  · simp [exec, step, hk, hw]
  · simp
  · intro j hj
    simp [List.getElem?_set_ne (Ne.symm hj)]
  · simp [List.getElem?_set_self hklt]

theorem exec_tick_watcher {s : RunState} {k d : ℕ} {sl sl1 : Slot}
    (hk : s.slots[k]? = some sl) (hw : watcherStep (s.now + d) sl = some sl1) :
    ∃ s1, exec s [.tick d, .watcher k] = some s1 ∧ Local k s s1
      ∧ s1.slots[k]? = some sl1 := by
  have hklt : k < s.slots.length := (List.getElem?_eq_some.mp hk).1
  refine ⟨{ s with slots := s.slots.set k sl1, now := s.now + d }, ?_, ⟨rfl, ?_, ?_⟩, ?_⟩
  · simp [exec, step, hk, hw]
  · simp
  · intro j hj
    simp [List.getElem?_set_ne (Ne.symm hj)]
  · simp [List.getElem?_set_self hklt]

/-- A timeout thread that polls can be made to end: once the clock is past
its wake-up time and past the timeout, its next step sets the flag. -/
theorem watcher_fires (now : ℕ) (sl : Slot) (w : ℕ) (hw : sl.watcher = .poll w) :
    watcherStep (now + (w + sl.task.timeout_ms.toNat + sl.start_time)) sl
      = some { sl with task := sl.task.cancel, watcher := .done } := by
  obtain ⟨task, reads, start, worker, watcher⟩ := sl
  simp only at hw
  subst hw
  simp only [watcherStep]
  rw [if_neg (by omega), if_neg (by push_cast; omega)]

theorem workRank_cancel (sl : Slot) (wa : WatcherPc) :
    workRank { sl with task := sl.task.cancel, watcher := wa } = workRank sl := by
  obtain ⟨task, reads, start, worker, watcher⟩ := sl
  cases worker <;> simp [workRank, Task.cancel]

/-- From a state in which the worker of task `k` exists and has not ended,
some steps of the two threads of the task and of the clock bring the task
closer to the end of its worker. -/
theorem slot_progress {tasks : List Task} {s : RunState} {k : ℕ} {sl : Slot}
    (inv : Inv tasks s) (hk : s.slots[k]? = some sl)
    (hun : sl.worker ≠ .unspawned) (hdn : sl.worker ≠ .done) :
    ∃ as s1 sl1, exec s as = some s1 ∧ Local k s s1 ∧ s1.slots[k]? = some sl1
      ∧ sl1.worker ≠ .unspawned ∧ rank sl1 < rank sl := by
  have ok : SlotOk sl := inv.slots_ok sl (List.mem_iff_getElem?.mpr ⟨k, hk⟩)
  -- the timeout thread can be ended whenever it polls
  have fire : ∀ w, sl.watcher = .poll w →
      ∃ as s1 sl1, exec s as = some s1 ∧ Local k s s1 ∧ s1.slots[k]? = some sl1
        ∧ sl1.worker ≠ .unspawned ∧ rank sl1 < rank sl := by
    intro w hw
    obtain ⟨s1, h1, h2, h3⟩ := exec_tick_watcher hk (watcher_fires s.now sl w hw)
    refine ⟨_, s1, _, h1, h2, h3, hun, ?_⟩
    simp only [rank, workRank_cancel, hw]
    simp
  -- a step of the worker
  have work : ∀ d sl1 dec out, workerStep (s.now + d) sl = some (sl1, dec, out) →
      rank sl1 < rank sl →
      ∃ as s1 sl1, exec s as = some s1 ∧ Local k s s1 ∧ s1.slots[k]? = some sl1
        ∧ sl1.worker ≠ .unspawned ∧ rank sl1 < rank sl := by
    intro d sl1 dec out hws hr
    obtain ⟨s1, h1, h2, h3⟩ := exec_tick_worker hk hws
    exact ⟨_, s1, sl1, h1, h2, h3, (workerStep_facts hws).2.2.1, hr⟩
  obtain ⟨task, reads, start, worker, watcher⟩ := sl
  cases worker with
  | unspawned => exact absurd rfl hun
  | done => exact absurd rfl hdn
  | entry =>
    exact work 0 ⟨task, reads, s.now + 0, .spawn, watcher⟩ false [] rfl
      (by simp [rank, workRank])
  | spawn =>
    have hf := ok.watcher_of_fresh rfl
    simp only at hf
    refine work 0 ⟨task, reads, start, .call (s.now + 0), .poll (s.now + 0)⟩ false [] rfl ?_
    simp only [rank, workRank, hf.1]
    split_ifs <;> simp
  | call w =>
    by_cases hwd : watcher = .done
    · have hflag : task.cancel_flag = true := ok.flag_of_watcher_done hwd
      cases hc : task.func.call task.argument reads with
      | some r =>
        refine work (w - s.now) ⟨task, reads, start, .store r, watcher⟩ false r.out ?_ ?_
        · simp only [workerStep, hc]
          rw [if_neg (by omega)]
        · simp [rank, workRank, hc]
      | none =>
        obtain ⟨r1, hr1, -⟩ := call_pending_true _ _ _ hc
        refine work (w - s.now)
          ⟨task, reads ++ [true], start, .call (s.now + (w - s.now)), watcher⟩ false [] ?_ ?_
        · simp only [workerStep, hc, hflag, if_true]
          rw [if_neg (by omega)]
        · simp [rank, workRank, hc, hr1]
    · have hwu : watcher ≠ .unspawned := ok.watcher_of_called rfl
      cases watcher with
      | unspawned => exact absurd rfl hwu
      | done => exact absurd rfl hwd
      | poll w2 => exact fire w2 rfl
  | store r =>
    exact work 0 ⟨{ task with result := r.value }, reads, start, .join, watcher⟩ false [] rfl
      (by simp [rank, workRank])
  | join =>
    by_cases hwd : watcher = .done
    · refine work 0 ⟨task, reads, start, .decrement, watcher⟩ false []
        (by simp only [workerStep, hwd, if_true]) ?_
      simp [rank, workRank]
    · have hwu : watcher ≠ .unspawned := ok.watcher_of_called rfl
      cases watcher with
      | unspawned => exact absurd rfl hwu
      | done => exact absurd rfl hwd
      | poll w2 => exact fire w2 rfl
  | decrement =>
    exact work 0 ⟨task, reads, start, .notify, watcher⟩ true [] rfl
      (by simp [rank, workRank])
  | notify =>
    exact work 0 ⟨task, reads, start, .done, watcher⟩ false [] rfl
      (by simp [rank, workRank])

theorem worker_done_of_rank {sl : Slot} (h : workRank sl = 0) : sl.worker = .done := by
  obtain ⟨task, reads, start, worker, watcher⟩ := sl
  cases worker <;> simp [workRank] at h ⊢
  split_ifs at h

/-- The worker of a task, once created, can be brought to its end by steps of
the two threads of the task and of the clock. -/
theorem slot_finishes {tasks : List Task} :
    ∀ (n : ℕ) (s : RunState) (k : ℕ) (sl : Slot), Inv tasks s → s.slots[k]? = some sl →
      sl.worker ≠ .unspawned → rank sl ≤ n →
      ∃ as s1 sl1, exec s as = some s1 ∧ Local k s s1 ∧ s1.slots[k]? = some sl1
        ∧ sl1.worker = .done := by
  intro n
  induction n with
  | zero =>
    intro s k sl _ hk _ hr
    have : workRank sl = 0 := by
      unfold rank at hr
      omega
    exact ⟨[], s, sl, rfl, local_refl k s, hk, worker_done_of_rank this⟩
  | succ n ih =>
    intro s k sl inv hk hun hr
    by_cases hdn : sl.worker = .done
    · exact ⟨[], s, sl, rfl, local_refl k s, hk, hdn⟩
    · obtain ⟨as, s1, sl1, h1, h2, h3, h4, h5⟩ := slot_progress inv hk hun hdn
      obtain ⟨bs, s2, sl2, g1, g2, g3, g4⟩ :=
        ih s1 k sl1 (inv_exec_from as inv h1) h3 h4 (by omega)
      refine ⟨as ++ bs, s2, sl2, ?_, local_trans h2 g2, g3, g4⟩
      rw [exec_append, h1]
      exact g1

theorem main_leaves_spawn :
    ∀ (n : ℕ) (s : RunState) (j : ℕ), s.main = .spawn j → s.slots.length - j = n →
      ∃ as s1, exec s as = some s1 ∧ s1.main = .wait := by
  intro n
  induction n with
  | zero =>
    intro s j hm hn
    have hj : s.slots[j]? = none := List.getElem?_eq_none (by omega)
    exact ⟨[.main], { s with main := .wait }, by simp [exec, step, mainStep, hm, hj], rfl⟩
  | succ n ih =>
    intro s j hm hn
    have hjlt : j < s.slots.length := by omega
    have hj : s.slots[j]? = some s.slots[j] := List.getElem?_eq_getElem hjlt
    obtain ⟨as, s1, h1, h2⟩ := ih
      { s with slots := s.slots.set j { s.slots[j] with worker := .entry }, main := .spawn (j + 1) }
      (j + 1) rfl (by simp; omega)
    refine ⟨.main :: as, s1, ?_, h2⟩
    simp only [exec, step, mainStep, hm, hj, Option.some_bind]
    exact h1

theorem main_joins :
    ∀ (n : ℕ) (s : RunState) (j : ℕ), s.main = .join j → s.slots.length - j = n →
      (∀ sl ∈ s.slots, sl.worker = .done) →
      ∃ as s1, exec s as = some s1 ∧ s1.main = .done := by
  intro n
  induction n with
  | zero =>
    intro s j hm hn _
    have hj : s.slots[j]? = none := List.getElem?_eq_none (by omega)
    exact ⟨[.main],
      { s with
        g := { s.g with cout := s.g.cout ++ ["Group " ++ s.group_name ++ " tasks completed.\n"] }
        main := .done },
      by simp [exec, step, mainStep, hm, hj], rfl⟩
  | succ n ih =>
    intro s j hm hn hall
    have hjlt : j < s.slots.length := by omega
    have hj : s.slots[j]? = some s.slots[j] := List.getElem?_eq_getElem hjlt
    have hd : s.slots[j].worker = .done := hall _ (List.getElem_mem hjlt)
    obtain ⟨as, s1, h1, h2⟩ := ih { s with main := .join (j + 1) } (j + 1) rfl
      (by simp; omega) hall
    refine ⟨.main :: as, s1, ?_, h2⟩
    simp only [exec, step, mainStep, hm, hj, hd, if_true, Option.some_bind]
    exact h1

/-- Once the main thread has created the workers, all of them can be brought
to their end. -/
theorem all_finish {tasks : List Task} (s : RunState) (inv : Inv tasks s)
    (hm : s.main ≠ .setCount) (hs : ∀ j, s.main ≠ .spawn j) :
    ∀ k, ∃ as s1, exec s as = some s1 ∧ s1.main = s.main
      ∧ s1.slots.length = s.slots.length
      ∧ ∀ (j : ℕ) (sl : Slot), j < k → s1.slots[j]? = some sl → sl.worker = .done := by
  intro k
  induction k with
  | zero => exact ⟨[], s, rfl, rfl, rfl, fun j _ hj => absurd hj (Nat.not_lt_zero j)⟩
  | succ k ih =>
    obtain ⟨as, s1, h1, h2, h3, h4⟩ := ih
    have inv1 := inv_exec_from as inv h1
    by_cases hk : k < s1.slots.length
    · have hkk : s1.slots[k]? = some s1.slots[k] := List.getElem?_eq_getElem hk
      have hun : s1.slots[k].worker ≠ .unspawned := by
        intro hu
        have hpc : (s1.slots.map Slot.worker)[k]? = some s1.slots[k].worker := by
          rw [List.getElem?_map, hkk]; rfl
        rcases inv1.main_ok.spawned k _ hpc hu with h | ⟨j, h, -⟩
        · rw [h2] at h; exact hm h
        · rw [h2] at h; exact hs j h
      obtain ⟨bs, s2, sl2, g1, g2, g3, g4⟩ :=
        slot_finishes (rank s1.slots[k]) s1 k _ inv1 hkk hun le_rfl
      refine ⟨as ++ bs, s2, ?_, g2.1.trans h2, g2.2.1.trans h3, ?_⟩
      · rw [exec_append, h1]
        exact g1
      · intro j sl hj hsl
        rcases Nat.lt_succ_iff_lt_or_eq.mp hj with hlt | heq
        · rw [g2.2.2 j (by omega)] at hsl
          exact h4 j sl hlt hsl
        · subst heq
          rw [g3] at hsl
          cases hsl
          exact g4
    · refine ⟨as, s1, h1, h2, h3, ?_⟩
      intro j sl hj hsl
      rcases Nat.lt_succ_iff_lt_or_eq.mp hj with hlt | heq
      · exact h4 j sl hlt hsl
      · subst heq
        have := (List.getElem?_eq_some.mp hsl).1
        omega

/-- From every state of a run of `runGroup` on an existing group there is a
continuation in which `runGroup` returns: the run cannot get stuck. -/
theorem can_return {tasks : List Task} (s : RunState) (inv : Inv tasks s) :
    ∃ as s1, exec s as = some s1 ∧ s1.main = .done := by
  -- the main thread creates the workers
  obtain ⟨as, s1, h1, hm1, hs1⟩ : ∃ as s1, exec s as = some s1 ∧ s1.main ≠ .setCount
      ∧ ∀ j, s1.main ≠ .spawn j := by
    cases hm : s.main with
    | setCount =>
      obtain ⟨as, s1, h1, h2⟩ := main_leaves_spawn _
        { s with g := { s.g with active_tasks := s.slots.length }, main := .spawn 0 } 0 rfl rfl
      refine ⟨.main :: as, s1, ?_, by rw [h2]; simp, by rw [h2]; simp⟩
      simp only [exec, step, mainStep, hm, Option.some_bind]
      exact h1
    | spawn j =>
      obtain ⟨as, s1, h1, h2⟩ := main_leaves_spawn _ s j hm rfl
      exact ⟨as, s1, h1, by rw [h2]; simp, by rw [h2]; simp⟩
    | wait => exact ⟨[], s, rfl, by rw [hm]; simp, by rw [hm]; simp⟩
    | join j => exact ⟨[], s, rfl, by rw [hm]; simp, by rw [hm]; simp⟩
    | done => exact ⟨[], s, rfl, by rw [hm]; simp, by rw [hm]; simp⟩
  have inv1 := inv_exec_from as inv h1
  -- the workers run to their end
  obtain ⟨bs, s2, h2, hm2, hl2, hall2⟩ := all_finish s1 inv1 hm1 hs1 s1.slots.length
  have inv2 := inv_exec_from bs inv1 h2
  have hdone : ∀ sl ∈ s2.slots, sl.worker = .done := by
    intro sl hsl
    obtain ⟨j, hj⟩ := List.mem_iff_getElem?.mp hsl
    have hjlt := (List.getElem?_eq_some.mp hj).1
    exact hall2 j sl (by omega) hj
  -- the main thread passes the barrier and joins the workers
  obtain ⟨cs, s3, h3, hm3⟩ : ∃ cs s3, exec s2 cs = some s3 ∧ s3.main = .done := by
    cases hm : s2.main with
    | setCount => exact absurd (by rw [← hm2, hm]) hm1
    | spawn j => exact absurd (by rw [← hm2, hm]) (hs1 j)
    | wait =>
      have hcount := inv2.main_ok.count (by rw [hm]; simp)
      have hall : (s2.slots.map Slot.worker).countP WorkerPc.finished
          = (s2.slots.map Slot.worker).length := by
        rw [List.countP_eq_length]
        intro w hw
        simp only [List.mem_map] at hw
        obtain ⟨sl, hsl, rfl⟩ := hw
        rw [hdone sl hsl]
        rfl
      have hzero : s2.g.active_tasks = 0 := by
        rw [hcount, hall]
        simp
      obtain ⟨cs, s3, g1, g2⟩ := main_joins _ { s2 with main := .join 0 } 0 rfl rfl hdone
      refine ⟨.main :: cs, s3, ?_, g2⟩
      simp only [exec, step, mainStep, hm, hzero, if_true, Option.some_bind]
      exact g1
    | join j => exact main_joins _ s2 j hm rfl hdone
    | done => exact ⟨[], s2, rfl, hm⟩
  refine ⟨as ++ (bs ++ cs), s3, ?_, hm3⟩
  rw [exec_append, h1]
  simp only [Option.some_bind]
  rw [exec_append, h2]
  exact h3

/-! ## runGroup: return, barrier, flags -/

theorem runGroup_inr {name : String} {g : Globals} {tasks : List Task}
    (hl : g.groups.lookup name = some tasks) :
    ∃ s0, runGroup name g = .inr s0 ∧ s0.g = g ∧ s0.group_name = name := by
  simp [runGroup, hl]

theorem length_of_inv {tasks : List Task} {s : RunState} (inv : Inv tasks s) :
    s.slots.length = tasks.length := by
  have := congrArg List.length inv.jobs
  simpa using this

theorem exec_frame {s s1 : RunState} (as : List Action) (h : exec s as = some s1) :
    s1.group_name = s.group_name ∧ s1.g.current_group = s.g.current_group :=
  exec_invariant
    (fun x => x.group_name = s.group_name ∧ x.g.current_group = s.g.current_group) (by
      intro x a x1 hx hst
      cases a <;> simp only [step, mainStep] at hst
      all_goals repeat' (split at hst)
      all_goals first
        | (simp at hst; done)
        | (simp only [Option.some.injEq] at hst
           subst hst
           simpa [handleCtrlC] using hx)) as s s1 ⟨rfl, rfl⟩ h

/-- C3. `runGroup(name)`: when the group does not exist the call returns at
once, having written the failure to `cerr` and changed nothing else; otherwise
the concurrent part starts, and in every execution, once `runGroup` has
returned, the tasks of the group are the same jobs in the same order, every
worker thread and every timeout thread has ended, and the `result` of every
task is the value that its call of `task.func` returned in this run, a call
determined by the values `reads` it read from the flag; and every execution
can be continued to the return of `runGroup`. -/
theorem runGroup_spec (name : String) (g : Globals) :
    (g.groups.lookup name = none →
      ∃ g1, runGroup name g = .inl g1
        ∧ g1.groups = g.groups ∧ g1.current_group = g.current_group
        ∧ g1.active_tasks = g.active_tasks ∧ g1.cout = g.cout
        ∧ g1.cerr = g.cerr ++ ["Group " ++ name ++ " does not exist.\n"])
    ∧ (∀ tasks, g.groups.lookup name = some tasks →
      ∃ s0, runGroup name g = .inr s0
        ∧ (∀ as s, exec s0 as = some s → s.main = .done →
          (s.slots.map fun sl => sl.task.job) = tasks.map Task.job
          ∧ s.globals.groups.lookup name = some (s.slots.map Slot.task)
          ∧ s.globals.current_group = g.current_group
          ∧ ∀ sl ∈ s.slots, sl.worker = .done ∧ sl.watcher = .done
              ∧ ∃ r, sl.task.func.call sl.task.argument sl.reads = some r
                  ∧ sl.task.result = r.value)
        ∧ ∀ as s, exec s0 as = some s → ∃ bs s1, exec s bs = some s1 ∧ s1.main = .done) := by
  constructor
  · intro h
    simp [runGroup, h]
  · intro tasks hl
    obtain ⟨s0, h0, hg, hn⟩ := runGroup_inr hl
    refine ⟨s0, h0, ?_, fun as s hex => can_return s (inv_exec hl h0 as hex)⟩
    intro as s hex hdone
    have inv := inv_exec hl h0 as hex
    have hframe : s.group_name = name ∧ s.g.current_group = g.current_group := by
      have := exec_frame as hex
      rw [hn, hg] at this
      exact this
    refine ⟨inv.jobs, ?_, ?_, ?_⟩
    · simp only [RunState.globals, hframe.1]
      exact lookup_mapSet_self _ _ _
    · simp only [RunState.globals, hframe.2]
    · intro sl hsl
      have hw : sl.worker = .done :=
        inv.main_ok.all_done hdone sl.worker (List.mem_map_of_mem _ hsl)
      have ok := inv.slots_ok sl hsl
      refine ⟨hw, ok.watcher_done_of_joined (by rw [hw]; rfl), ?_⟩
      exact ok.result_of_stored (by rw [hw]; rfl)

/-- C7. Run barrier: the first step of `runGroup` sets `active_tasks` to the
number `N` of tasks; before it no worker exists; from then on, in every
execution, `active_tasks` equals `N` minus the number of workers that have
executed their decrement, it is not negative, and it is zero exactly when all
`N` workers have executed their decrement; a worker that is at its decrement
or past it has its timeout thread ended and its `task.func` returned, with
the returned value stored in `task.result`; and a worker decrements in one
step only, the one that takes it from its decrement to `notify_one`, after
which it ends. -/
theorem run_barrier (name : String) (g : Globals) (tasks : List Task) (s0 s : RunState)
    (as : List Action) (hl : g.groups.lookup name = some tasks)
    (h0 : runGroup name g = .inr s0) (h : exec s0 as = some s) :
    s.slots.length = tasks.length
    ∧ (exec s0 [.main]).map (fun s1 => s1.g.active_tasks) = some (tasks.length : ℤ)
    ∧ (s.main = .setCount → ∀ sl ∈ s.slots, sl.worker = .unspawned)
    ∧ (s.main ≠ .setCount →
        s.g.active_tasks
            = (tasks.length : ℤ) - s.slots.countP (fun sl => sl.worker.finished)
        ∧ 0 ≤ s.g.active_tasks
        ∧ (s.g.active_tasks = 0 ↔ ∀ sl ∈ s.slots, sl.worker.finished = true))
    ∧ (∀ sl ∈ s.slots, sl.worker.joined = true →
        sl.watcher = .done
        ∧ ∃ r, sl.task.func.call sl.task.argument sl.reads = some r
            ∧ sl.task.result = r.value)
    ∧ (∀ now sl sl1 dec out, workerStep now sl = some (sl1, dec, out) →
        (dec = true ↔ sl.worker = .decrement)
        ∧ (sl.worker = .decrement → sl1.worker = .notify)
        ∧ (sl1.worker = .done ↔ sl.worker = .notify)) := by
  have inv := inv_exec hl h0 as h
  have hlen := length_of_inv inv
  have hcount : (s.slots.map Slot.worker).countP WorkerPc.finished
      = s.slots.countP (fun sl => sl.worker.finished) := by
    rw [List.countP_map]; rfl
  refine ⟨hlen, ?_, ?_, ?_, ?_, ?_⟩
  · have h00 := h0
    simp only [runGroup, hl, Sum.inr.injEq] at h00
    subst h00
    simp [exec, step, mainStep]
  · intro hm sl hsl
    exact inv.main_ok.not_started hm sl.worker (List.mem_map_of_mem _ hsl)
  · intro hm
    have hc := inv.main_ok.count hm
    rw [List.length_map, hcount, hlen] at hc
    have hle : s.slots.countP (fun sl => sl.worker.finished) ≤ s.slots.length :=
      List.countP_le_length _
    refine ⟨hc, by omega, ?_⟩
    rw [← List.countP_eq_length]
    omega
  · intro sl hsl hj
    have ok := inv.slots_ok sl hsl
    refine ⟨ok.watcher_done_of_joined hj, ok.result_of_stored ?_⟩
    revert hj
    cases sl.worker <;> simp [WorkerPc.joined, WorkerPc.stored]
  · intro now sl sl1 dec out hws
    obtain ⟨task, reads, start, worker, watcher⟩ := sl
    cases worker <;> simp only [workerStep] at hws
    all_goals repeat' (split at hws)
    all_goals first
      | (simp at hws; done)
      | (simp only [Option.some.injEq, Prod.mk.injEq] at hws
         obtain ⟨rfl, rfl, rfl⟩ := hws
         simp)

/-- A property of tasks and their threads that holds of every task is kept
along an execution under the conditions of `slot_exec`. -/
theorem all_slots_exec {tasks : List Task} (Q : Slot → Prop)
    (hentry : ∀ sl, Q sl → sl.worker = .unspawned → Q { sl with worker := .entry })
    (hworker : ∀ now sl sl1 dec out, Q sl → SlotOk sl →
      workerStep now sl = some (sl1, dec, out) → Q sl1)
    (hwatcher : ∀ now sl sl1, Q sl → SlotOk sl → watcherStep now sl = some sl1 → Q sl1)
    (hcancel : ∀ sl, Q sl → SlotOk sl → Q { sl with task := sl.task.cancel })
    (as : List Action) (s s1 : RunState) (inv : Inv tasks s)
    (hall : ∀ sl ∈ s.slots, Q sl) (h : exec s as = some s1) :
    ∀ sl ∈ s1.slots, Q sl := by
  intro sl1 hsl1
  obtain ⟨k, hk1⟩ := List.mem_iff_getElem?.mp hsl1
  have hklt : k < s.slots.length := by
    rw [← exec_length as h]
    exact (List.getElem?_eq_some.mp hk1).1
  have hk : s.slots[k]? = some s.slots[k] := List.getElem?_eq_getElem hklt
  obtain ⟨sl2, hk2, hq⟩ := slot_exec Q hentry hworker hwatcher hcancel as s s1 inv
    ⟨_, hk, hall _ (List.getElem_mem hklt)⟩ h
  rw [hk1] at hk2
  cases hk2
  exact hq

theorem flag_kept_workerStep {now : ℕ} {sl sl1 : Slot} {dec : Bool} {out : List String}
    (h : workerStep now sl = some (sl1, dec, out)) (hf : sl.task.cancel_flag = true) :
    sl1.task.cancel_flag = true := by
  obtain ⟨-, -, -, -, f5, -⟩ := workerStep_facts h
  rw [f5, hf]

theorem reads_workerStep {now : ℕ} {sl sl1 : Slot} {dec : Bool} {out : List String}
    (h : workerStep now sl = some (sl1, dec, out)) :
    sl1.reads = sl.reads ∨ sl1.reads = sl.reads ++ [sl.task.cancel_flag] := by
  obtain ⟨task, reads, start, worker, watcher⟩ := sl
  cases worker <;> simp only [workerStep] at h
  all_goals repeat' (split at h)
  all_goals first
    | (simp at h; done)
    | (simp only [Option.some.injEq, Prod.mk.injEq] at h
       obtain ⟨rfl, rfl, rfl⟩ := h
       simp_all)

/-- C10. In every execution of `runGroup` on an existing group: a timeout
thread that has ended has left the flag of its task true; a worker that is
past `timeout_thread.join()` has its timeout thread ended; a flag that is
true stays true in the rest of the execution; hence once `runGroup` has
returned the flag of every task of the group is true, including the tasks
that completed with a computed value, and in a second call of `runGroup` on
the same group every value that a work function reads from its flag is true,
so that a task whose function has a checkpoint ends with the result `NAN`. -/
theorem flags_after_run (name : String) (g : Globals) (tasks : List Task) (s0 s : RunState)
    (as : List Action) (hl : g.groups.lookup name = some tasks)
    (h0 : runGroup name g = .inr s0) (h : exec s0 as = some s) :
    (∀ sl ∈ s.slots, sl.watcher = .done → sl.task.cancel_flag = true)
    ∧ (∀ sl ∈ s.slots, sl.worker.joined = true → sl.watcher = .done)
    ∧ (∀ (bs : List Action) (s1 : RunState) (k : ℕ) (sl sl1 : Slot),
        exec s bs = some s1 → s.slots[k]? = some sl →
        s1.slots[k]? = some sl1 → sl.task.cancel_flag = true → sl1.task.cancel_flag = true)
    ∧ (s.main = .done →
        (∀ sl ∈ s.slots, sl.task.cancel_flag = true)
        ∧ s.globals.groups.lookup name = some (s.slots.map Slot.task)
        ∧ ∃ s2, runGroup name s.globals = .inr s2
          ∧ ∀ bs s3, exec s2 bs = some s3 → ∀ sl ∈ s3.slots,
              sl.task.cancel_flag = true
              ∧ (∀ b ∈ sl.reads, b = true)
              ∧ (sl.worker.stored = true → sl.reads ≠ [] → sl.task.result = Dbl.nan)) := by
  have inv := inv_exec hl h0 as h
  have hflags : s.main = .done → ∀ sl ∈ s.slots, sl.task.cancel_flag = true := by
    intro hdone sl hsl
    have hw : sl.worker = .done :=
      inv.main_ok.all_done hdone sl.worker (List.mem_map_of_mem _ hsl)
    have ok := inv.slots_ok sl hsl
    exact ok.flag_of_watcher_done (ok.watcher_done_of_joined (by rw [hw]; rfl))
  refine ⟨fun sl hsl => (inv.slots_ok sl hsl).flag_of_watcher_done,
    fun sl hsl => (inv.slots_ok sl hsl).watcher_done_of_joined, ?_, ?_⟩
  · intro bs s1 k sl sl1 hex hk hk1 hf
    obtain ⟨sl2, hk2, hq⟩ := slot_exec (fun sl => sl.task.cancel_flag = true)
      (fun _ hq _ => hq) (fun _ _ _ _ _ hq _ hws => flag_kept_workerStep hws hq)
      (fun _ _ _ hq _ hws => (watcherStep_facts hws).2.2.2.2.2.1 hq)
      (fun _ _ _ => rfl) bs s s1 inv ⟨sl, hk, hf⟩ hex
    rw [hk1] at hk2
    cases hk2
    exact hq
  · intro hdone
    have hname : s.group_name = name := by
      have := (exec_frame as h).1
      obtain ⟨s0', h0', -, hn⟩ := runGroup_inr hl
      rw [h0] at h0'
      cases h0'
      rw [this, hn]
    have hl2 : s.globals.groups.lookup name = some (s.slots.map Slot.task) := by
      simp only [RunState.globals, hname]
      exact lookup_mapSet_self _ _ _
    refine ⟨hflags hdone, hl2, ?_⟩
    obtain ⟨s2, h2, -, -⟩ := runGroup_inr hl2
    refine ⟨s2, h2, ?_⟩
    intro bs s3 hex sl hsl
    have inv2 := inv_init hl2 h2
    have inv3 := inv_exec hl2 h2 bs hex
    have hinit : ∀ sl ∈ s2.slots, sl.task.cancel_flag = true ∧ ∀ b ∈ sl.reads, b = true := by
      have h2' := h2
      simp only [runGroup, hl2, Sum.inr.injEq] at h2'
      subst h2'
      intro sl hsl
      simp only [List.map_map, List.mem_map, Function.comp] at hsl
      obtain ⟨sl0, hsl0, rfl⟩ := hsl
      exact ⟨hflags hdone sl0 hsl0, by simp⟩
    have hall := all_slots_exec
      (fun sl => sl.task.cancel_flag = true ∧ ∀ b ∈ sl.reads, b = true)
      (fun _ hq _ => hq)
      (fun _ sl sl1 _ _ hq _ hws => by
        refine ⟨flag_kept_workerStep hws hq.1, ?_⟩
        rcases reads_workerStep hws with hr | hr
        · rw [hr]; exact hq.2
        · rw [hr, hq.1]
          intro b hb
          rcases List.mem_append.mp hb with hb | hb
          · exact hq.2 b hb
          · simpa using hb)
      (fun _ sl sl1 hq _ hws => by
        obtain ⟨-, -, f3, -, -, f6, -⟩ := watcherStep_facts hws
        exact ⟨f6 hq.1, by rw [f3]; exact hq.2⟩)
      (fun _ hq _ => ⟨rfl, hq.2⟩) bs s2 s3 inv2 hinit hex sl hsl
    refine ⟨hall.1, hall.2, ?_⟩
    intro hst hne
    have ok := inv3.slots_ok sl hsl
    obtain ⟨r, hr, hres⟩ := ok.result_of_stored hst
    obtain ⟨pre, b, hpb⟩ : ∃ pre b, sl.reads = pre ++ [b] := by
      rcases List.eq_nil_or_concat sl.reads with h1 | ⟨pre, b, h1⟩
      · exact absurd h1 hne
      · exact ⟨pre, b, by simpa using h1⟩
    have hpend := ok.pending_before_read pre b hpb
    have hpre : pre = [] := by
      rcases List.eq_nil_or_concat pre with h1 | ⟨p2, c, h1⟩
      · exact h1
      · have hc : c ∈ pre := by rw [h1]; simp
        have hfalse := call_pending_all_false _ _ _ hpend c hc
        have htrue := hall.2 c (by rw [hpb]; exact List.mem_append_left _ hc)
        rw [hfalse] at htrue
        cases htrue
    have hb : b = true := hall.2 b (by rw [hpb]; simp)
    subst hpre hb
    obtain ⟨r1, hr1, hv⟩ := call_pending_true _ _ _ hpend
    rw [hpb, hr1] at hr
    cases hr
    rw [hres, hv]

/-! ## Broadcast while a work function runs -/

theorem doomed_workerStep {now : ℕ} {sl sl1 : Slot} {dec : Bool} {out : List String}
    (hd : Doomed sl) (h : workerStep now sl = some (sl1, dec, out)) : Doomed sl1 := by
  obtain ⟨task, reads, start, worker, watcher⟩ := sl
  obtain ⟨d1, d2, d3, d4, d5⟩ := hd
  cases worker <;> simp only [workerStep] at h
  case call w =>
    split_ifs at h with hlt
    split at h
    · next r hr =>
      simp only [Option.some.injEq, Prod.mk.injEq] at h
      obtain ⟨rfl, rfl, rfl⟩ := h
      have hv : r.value = Dbl.nan := by
        rcases d3 w rfl with h1 | ⟨r1, h1, h2⟩
        · simp only at h1 hr
          rw [h1] at hr
          cases hr
        · simp only at h1 hr
          rw [h1] at hr
          cases hr
          exact h2
      constructor <;> simp_all [WorkerPc.fresh, WorkerPc.stored]
    · next hr =>
      simp only at d1
      simp only [d1, if_true, Option.some.injEq, Prod.mk.injEq] at h
      obtain ⟨rfl, rfl, rfl⟩ := h
      have := call_pending_true _ _ _ hr
      constructor <;> simp_all [WorkerPc.fresh, WorkerPc.stored]
  all_goals repeat' (split at h)
  all_goals first
    | (simp at h; done)
    | (simp only [Option.some.injEq, Prod.mk.injEq] at h
       obtain ⟨rfl, rfl, rfl⟩ := h
       constructor <;> simp_all [WorkerPc.fresh, WorkerPc.stored])

theorem doomed_watcherStep {now : ℕ} {sl sl1 : Slot}
    (hd : Doomed sl) (h : watcherStep now sl = some sl1) : Doomed sl1 := by
  obtain ⟨f1, f2, f3, f4, -, f6, -⟩ := watcherStep_facts h
  obtain ⟨d1, d2, d3, d4, d5⟩ := hd
  simp only [Task.job, Prod.mk.injEq] at f2
  constructor
  · exact f6 d1
  · rw [f1]; exact d2
  · rw [f1, f2.2.1, f2.2.2.1, f3]; exact d3
  · rw [f1]; exact d4
  · rw [f1, f4]; exact d5

/-- C6 (amended). Broadcast law: if `handleCtrlC` runs at a moment when the
work function of a task has been called and still has a checkpoint to reach
(the call, resumed with the values read so far, waits for a further value of
the flag), then in the rest of the execution the function returns `NAN` and
the result of the task, once stored, is `NAN`: the task ends Cancelled. -/
theorem broadcast_law (name : String) (g : Globals) (tasks : List Task) (s0 s : RunState)
    (as : List Action) (k : ℕ) (sl : Slot) (w : ℕ)
    (hl : g.groups.lookup name = some tasks) (h0 : runGroup name g = .inr s0)
    (h : exec s0 as = some s) (hk : s.slots[k]? = some sl) (hw : sl.worker = .call w)
    (hpend : sl.task.func.call sl.task.argument sl.reads = none)
    (bs : List Action) (s1 : RunState) (sl1 : Slot)
    (h1 : exec s (.ctrlC :: bs) = some s1) (hk1 : s1.slots[k]? = some sl1) :
    sl1.task.cancel_flag = true
    ∧ sl1.worker.fresh = false
    ∧ (∀ r, sl1.worker = .store r → r.value = Dbl.nan)
    ∧ (sl1.worker.stored = true → sl1.task.result = Dbl.nan) := by
  have inv := inv_exec hl h0 as h
  simp only [exec, step, Option.some_bind] at h1
  have inv1 : Inv tasks { s with
      g := handleCtrlC s.g
      slots := s.slots.map fun sl => { sl with task := sl.task.cancel } } :=
    inv_step (a := .ctrlC) inv rfl
  have hd0 : Doomed ({ sl with task := sl.task.cancel } : Slot) := by
    constructor
    · rfl
    · simp [hw, WorkerPc.fresh]
    · intro _ _; exact Or.inl hpend
    · intro r hr; simp [hw] at hr
    · simp [hw, WorkerPc.stored]
  have hk0 : (s.slots.map fun sl => ({ sl with task := sl.task.cancel } : Slot))[k]?
      = some ({ sl with task := sl.task.cancel } : Slot) := by
    rw [List.getElem?_map, hk]
    rfl
  obtain ⟨sl2, hk2, hd⟩ := slot_exec Doomed
    (fun sl hq hun => by have := hq.called; rw [hun] at this; cases this)
    (fun _ _ _ _ _ hq _ hws => doomed_workerStep hq hws)
    (fun _ _ _ hq _ hws => doomed_watcherStep hq hws)
    (fun sl hq _ => ⟨rfl, hq.called, hq.in_call, hq.at_store, hq.after_store⟩)
    bs _ s1 inv1 ⟨_, hk0, hd0⟩ h1
  rw [hk1] at hk2
  cases hk2
  exact ⟨hd.flag, hd.called, hd.at_store, hd.after_store⟩

/-! ## Punctual executions and the timeout law -/

theorem stepP_step {s s1 : RunState} {a : Action} (h : stepP s a = some s1) :
    step s a = some s1 := by
  cases a <;> simp only [stepP] at h
  all_goals try exact h
  split_ifs at h
  exact h

theorem execP_exec {s s1 : RunState} (as : List Action) (h : execP s as = some s1) :
    exec s as = some s1 := by
  induction as generalizing s with
  | nil => simpa [execP, exec] using h
  | cons a as ih =>
    simp only [execP] at h
    cases hst : stepP s a with
    | none => simp [hst] at h
    | some s2 =>
      rw [hst] at h
      simp only [exec, stepP_step hst]
      exact ih h

theorem demo_ofInt : Dbl.ofInt (wrap32 (5 * 5)) = Dbl.fin 25 := by
  have h : wrap32 (5 * 5) = 25 := by decide
  rw [h, Dbl.ofInt_of_small _ (by decide)]
  norm_num

theorem demo_lookup :
    demoGlobals.groups.lookup "g1" = some [⟨"a", .square, 5, 2000, Dbl.nan, false⟩] := by
  decide

theorem demo_run : runGroup "g1" demoGlobals = .inr demoInit := by decide

set_option maxRecDepth 100000 in
theorem demo_exec_mid : exec demoInit demoBefore = some demoMid := by decide

set_option maxRecDepth 100000 in
theorem demo_exec_done : exec demoInit (demoBefore ++ demoAfter) = some demoDone := by rfl

set_option maxRecDepth 100000 in
theorem demo_exec_early :
    exec demoInit [.main, .main, .main, .worker 0, .worker 0, .worker 0] = some demoEarly := by
  decide

set_option maxRecDepth 100000 in
theorem demo_exec_cancelled :
    exec demoEarly [.ctrlC, .tick 100, .worker 0, .worker 0, .worker 0]
      = some demoCancelled := by
  decide

set_option maxRecDepth 100000 in
theorem demo_exec_mid_view :
    (exec demoInit demoBefore).map
        (fun s => s.slots.map fun sl => (sl.worker, sl.reads, sl.task.cancel_flag))
      = some [(.call 1000, List.replicate 10 false, false)] := by
  decide

set_option maxRecDepth 100000 in
theorem demo_exec_broadcast :
    (exec demoInit (demoBefore ++ .ctrlC :: demoAfter)).map
        (fun s => (s.main, s.slots.map fun sl => (sl.task.cancel_flag, sl.task.result)))
      = some (.done, [(true, Dbl.ofInt (wrap32 (5 * 5)))]) := by
  rfl

/-- C9 at concrete inputs: creating `g1` again fails and keeps the map;
creating `g2` makes it an empty group and keeps `g1`. -/
theorem createGroup_spec_witness :
    (createGroup "g1" demoGlobals).groups = demoGlobals.groups
    ∧ (createGroup "g1" demoGlobals).cerr = ["Group g1 already exists.\n"]
    ∧ (createGroup "g2" demoGlobals).groups.lookup "g2" = some []
    ∧ (createGroup "g2" demoGlobals).groups.lookup "g1" = demoGlobals.groups.lookup "g1"
    ∧ (createGroup "g2" demoGlobals).current_group = "g1" :=
  ⟨((createGroup_spec "g1" demoGlobals).1 (by decide)).1,
   ((createGroup_spec "g1" demoGlobals).1 (by decide)).2.2.2.2,
   ((createGroup_spec "g2" demoGlobals).2 (by decide)).1,
   ((createGroup_spec "g2" demoGlobals).2 (by decide)).2.1 "g1" (by decide),
   ((createGroup_spec "g2" demoGlobals).2 (by decide)).2.2.1⟩

/-- C8 at concrete inputs: adding `b` = `factorial(50)` with timeout 1000 to
`g1` appends it after `a`; adding it to the missing group `g2` fails and keeps
the map. -/
theorem addTask_spec_witness :
    (addTask "g1" "b" .factorial 50 1000 demoGlobals).groups.lookup "g1"
      = some ([⟨"a", .square, 5, 2000, Dbl.nan, false⟩]
          ++ [⟨"b", .factorial, 50, 1000, Dbl.nan, false⟩])
    ∧ (addTask "g1" "b" .factorial 50 1000 demoGlobals).current_group = "g1"
    ∧ (addTask "g2" "b" .factorial 50 1000 demoGlobals).groups = demoGlobals.groups
    ∧ (addTask "g2" "b" .factorial 50 1000 demoGlobals).cerr
        = ["Group g2 does not exist.\n"] :=
  ⟨((addTask_spec "g1" "b" .factorial 50 1000 demoGlobals).2 _ demo_lookup).1,
   ((addTask_spec "g1" "b" .factorial 50 1000 demoGlobals).2 _ demo_lookup).2.2.1,
   ((addTask_spec "g2" "b" .factorial 50 1000 demoGlobals).1 (by decide)).1,
   ((addTask_spec "g2" "b" .factorial 50 1000 demoGlobals).1 (by decide)).2.2.2.2⟩

/-- C3 at concrete inputs: `runGroup("g0")` fails on `demoGlobals`; in the
run of `g1`, when `runGroup` has returned, both threads of task `a` have
ended and its result is the value 25 that `square(5)` returned; and from the
state at 900 ms the run can be continued to the return. -/
theorem runGroup_spec_witness :
    (∃ g1, runGroup "g0" demoGlobals = .inl g1 ∧ g1.groups = demoGlobals.groups
      ∧ g1.cerr = ["Group g0 does not exist.\n"])
    ∧ (∀ sl ∈ demoDone.slots, sl.worker = .done ∧ sl.watcher = .done
        ∧ ∃ r, sl.task.func.call sl.task.argument sl.reads = some r
            ∧ sl.task.result = r.value)
    ∧ demoDone.slots.map (fun sl => sl.task.result) = [Dbl.fin 25]
    ∧ (∃ bs s1, exec demoMid bs = some s1 ∧ s1.main = .done) := by
  refine ⟨?_, ?_, ?_, ?_⟩
  · obtain ⟨g1, h1, h2, -, -, -, h3⟩ := (runGroup_spec "g0" demoGlobals).1 (by decide)
    exact ⟨g1, h1, h2, h3⟩
  · obtain ⟨s0, h0, hrun, -⟩ := (runGroup_spec "g1" demoGlobals).2 _ demo_lookup
    rw [demo_run] at h0
    cases h0
    exact (hrun _ demoDone demo_exec_done (by decide)).2.2.2
  · show [Dbl.ofInt (wrap32 (5 * 5))] = [Dbl.fin 25]
    rw [demo_ofInt]
  · obtain ⟨s0, h0, -, hlive⟩ := (runGroup_spec "g1" demoGlobals).2 _ demo_lookup
    rw [demo_run] at h0
    cases h0
    exact hlive _ demoMid demo_exec_mid

/-- C7 at concrete inputs: at 900 ms of the run of `g1` the worker of task `a`
has not decremented the counter, which is 1; when `runGroup` has returned it
has, and the counter is 0. -/
theorem run_barrier_witness :
    demoMid.g.active_tasks = 1 - demoMid.slots.countP (fun sl => sl.worker.finished)
    ∧ demoMid.g.active_tasks = 1
    ∧ demoDone.g.active_tasks = 0
    ∧ (demoDone.g.active_tasks = 0 ↔ ∀ sl ∈ demoDone.slots, sl.worker.finished = true) :=
  ⟨((run_barrier "g1" demoGlobals _ demoInit demoMid demoBefore demo_lookup demo_run
      demo_exec_mid).2.2.2.1 (by decide)).1,
   by decide, by decide,
   ((run_barrier "g1" demoGlobals _ demoInit demoDone (demoBefore ++ demoAfter) demo_lookup
      demo_run demo_exec_done).2.2.2.1 (by decide)).2.2⟩

/-- C10 at concrete inputs: when `runGroup("g1")` has returned, the flag of
task `a`, which completed with the value 25, is true, and in a second run the
function reads the flag as true. -/
theorem flags_after_run_witness :
    (∀ sl ∈ demoDone.slots, sl.task.cancel_flag = true)
    ∧ ∃ s2, runGroup "g1" demoDone.globals = .inr s2
      ∧ ∀ bs s3, exec s2 bs = some s3 → ∀ sl ∈ s3.slots,
          sl.task.cancel_flag = true
          ∧ (∀ b ∈ sl.reads, b = true)
          ∧ (sl.worker.stored = true → sl.reads ≠ [] → sl.task.result = Dbl.nan) :=
  ⟨((flags_after_run "g1" demoGlobals _ demoInit demoDone (demoBefore ++ demoAfter)
      demo_lookup demo_run demo_exec_done).2.2.2 (by decide)).1,
   ((flags_after_run "g1" demoGlobals _ demoInit demoDone (demoBefore ++ demoAfter)
      demo_lookup demo_run demo_exec_done).2.2.2 (by decide)).2.2⟩

/-- C6, counterexample: in the run of `g1`, `handleCtrlC` runs at 900 ms,
when `square(5)` has been called, has passed its ten checkpoints with the
flag false and is in its last sleep; the function then returns 25 and, when
`runGroup` has returned, the flag is true and the result of the task is 25,
not `NAN`. -/
theorem broadcast_in_last_sleep :
    runGroup "g1" demoGlobals = .inr demoInit
    ∧ (exec demoInit demoBefore).map
        (fun s => s.slots.map fun sl => (sl.worker, sl.reads, sl.task.cancel_flag))
      = some [(.call 1000, List.replicate 10 false, false)]
    ∧ (exec demoInit (demoBefore ++ .ctrlC :: demoAfter)).map
        (fun s => (s.main, s.slots.map fun sl => (sl.task.cancel_flag, sl.task.result)))
      = some (.done, [(true, Dbl.fin 25)]) := by
  refine ⟨demo_run, demo_exec_mid_view, ?_⟩
  rw [← demo_ofInt]
  exact demo_exec_broadcast

/-- C6 (amended) at concrete inputs: `handleCtrlC` runs when `square(5)` has
passed its first checkpoint only; at the second one it returns `NAN`, which
becomes the result of the task. -/
theorem broadcast_law_witness :
    demoEarly.slots.map (fun sl => (sl.worker, sl.reads)) = [(.call 100, [false])]
    ∧ demoCancelled.slots.map (fun sl => (sl.worker, sl.task.result)) = [(.join, Dbl.nan)]
    ∧ (⟨⟨"a", .square, 5, 2000, Dbl.nan, true⟩, [false, true], 0, .join, .poll 0⟩ :
        Slot).task.result = Dbl.nan :=
  ⟨by decide, by decide,
   (broadcast_law "g1" demoGlobals _ demoInit demoEarly
      [.main, .main, .main, .worker 0, .worker 0, .worker 0] 0
      ⟨⟨"a", .square, 5, 2000, Dbl.nan, false⟩, [false], 0, .call 100, .poll 0⟩ 100
      demo_lookup demo_run demo_exec_early (by decide) (by decide) (by decide)
      [.tick 100, .worker 0, .worker 0, .worker 0] demoCancelled
      ⟨⟨"a", .square, 5, 2000, Dbl.nan, true⟩, [false, true], 0, .join, .poll 0⟩
      demo_exec_cancelled (by decide)).2.2.2 (by decide)⟩

end TaskGroups
